import Mathlib

/-!
Verification of the navigation-and-extraction engine in `sources/browser.py`
(class `Browser`).  Python strings are modelled as `List Char`; the pure
string-processing methods are translated directly, and the Selenium driver
interactions are modelled as explicit environment/event values.  Python's
`str.lower` is modelled with `Char.toLower` (ASCII case mapping), `str.strip`
with trimming of ASCII whitespace, and the regex word class `\w` with
alphanumeric-or-underscore characters.
-/

namespace Browser

/-! ### Character-list toolkit (models of Python `str` primitives) -/

/-- Model of `s.split(c)[0]`: the prefix of `l` before the first occurrence of
`c` (the whole list when `c` is absent). -/
def takeUntilCh (c : Char) : List Char → List Char
  | [] => []
  | x :: xs => if x = c then [] else x :: takeUntilCh c xs

/-- The suffix of `l` after the first occurrence of `c`; `none` when `c` is
absent.  Together with `takeUntilCh` this models Python `s.split(c, 1)`. -/
def dropAfterCh (c : Char) : List Char → Option (List Char)
  | [] => none
  | x :: xs => if x = c then some xs else dropAfterCh c xs

/-- Model of Python `s.split(c)` (single-character separator, no maxsplit). -/
def splitCh (sep : Char) : List Char → List (List Char)
  | [] => [[]]
  | c :: rest =>
    let r := splitCh sep rest
    if c = sep then [] :: r else (c :: r.headD []) :: r.tail

/-- Model of Python `c.join(parts)` for a single-character separator. -/
def joinCh (sep : Char) : List (List Char) → List Char
  | [] => []
  | [p] => p
  | p :: q :: ps => p ++ sep :: joinCh sep (q :: ps)

/-- Model of Python `sep.join(parts)` for a multi-character separator. -/
def joinSepL (sep : List Char) : List (List Char) → List Char
  | [] => []
  | [p] => p
  | p :: q :: ps => p ++ sep ++ joinSepL sep (q :: ps)

/-- Boolean test that `p` is a leading segment of `l`
(model of Python `s.startswith(p)`). -/
def leadsWith : List Char → List Char → Bool
  | [], _ => true
  | _ :: _, [] => false
  | p :: ps, c :: cs => p = c && leadsWith ps cs

/-- Boolean test that `m` occurs contiguously inside `l`
(model of Python `m in s`). -/
def containsSub (m : List Char) : List Char → Bool
  | [] => m.isEmpty
  | c :: rest => leadsWith m (c :: rest) || containsSub m rest

/-- Boolean test that `s` is a trailing segment of `l`
(model of Python `s.endswith(p)`). -/
def tailsWith (s l : List Char) : Bool :=
  leadsWith s.reverse l.reverse

/-- Model of Python `s.lower()` (ASCII case mapping). -/
def toLowerStr (l : List Char) : List Char :=
  l.map Char.toLower

/-- ASCII whitespace, modelling the characters removed by Python `str.strip`
and split on by `str.split()`. -/
def isSpaceCh (c : Char) : Bool :=
  c = ' ' || c = '\t' || c = '\n' || c = '\r'

/-- Model of Python `s.strip()`. -/
def stripL (l : List Char) : List Char :=
  ((l.dropWhile isSpaceCh).reverse.dropWhile isSpaceCh).reverse

/-! ### `Browser.clean_url` (src/sources/browser.py lines 189-204) -/

/-- The `if param.startswith(...)` keep-condition of `clean_url`'s loop. -/
def keeperParam (p : List Char) : Bool :=
  leadsWith "_skw=".toList p || leadsWith "q=".toList p || leadsWith "s=".toList p

/-- The `elif param.startswith(...)` break-condition of `clean_url`'s loop. -/
def breakerParam (p : List Char) : Bool :=
  leadsWith "_".toList p || leadsWith "hash=".toList p || leadsWith "itmmeta=".toList p

/-- The `for param in query.split('&')` loop of `clean_url`: appends keeper
parameters and stops at the first (non-keeper) breaker parameter. -/
def scanParams : List (List Char) → List (List Char)
  | [] => []
  | p :: rest =>
    if keeperParam p then p :: scanParams rest
    else if breakerParam p then []
    else scanParams rest

/-- Model of `Browser.clean_url`: drop the fragment, then keep only the
essential query parameters (stopping early at tracking-noise markers). -/
def clean_url (url : List Char) : List Char :=
  let clean := takeUntilCh '#' url
  let base_url := takeUntilCh '?' clean
  match dropAfterCh '?' clean with
  | none => base_url
  | some query =>
    let essential := scanParams (splitCh '&' query)
    if essential.isEmpty then base_url
    else base_url ++ '?' :: joinCh '&' essential

/-! ### Toolkit lemmas -/

theorem takeUntilCh_of_not_mem {c : Char} {l : List Char} (h : c ∉ l) :
    takeUntilCh c l = l := by
  induction l with
  | nil => rfl
  | cons x xs ih =>
    simp only [takeUntilCh]
    rw [if_neg (by rintro rfl; exact h (List.mem_cons_self _ _)),
      ih (fun hm => h (List.mem_cons_of_mem _ hm))]

theorem dropAfterCh_of_not_mem {c : Char} {l : List Char} (h : c ∉ l) :
    dropAfterCh c l = none := by
  induction l with
  | nil => rfl
  | cons x xs ih =>
    simp only [dropAfterCh]
    rw [if_neg (by rintro rfl; exact h (List.mem_cons_self _ _))]
    exact ih (fun hm => h (List.mem_cons_of_mem _ hm))

theorem not_mem_takeUntilCh (c : Char) (l : List Char) : c ∉ takeUntilCh c l := by
  induction l with
  | nil => simp [takeUntilCh]
  | cons x xs ih =>
    simp only [takeUntilCh]
    split
    · simp
    · intro hm
      rcases List.mem_cons.mp hm with h | h
      · exact (by assumption : ¬x = c) h.symm
      · exact ih h

theorem mem_of_mem_takeUntilCh {c x : Char} {l : List Char}
    (h : x ∈ takeUntilCh c l) : x ∈ l := by
  induction l with
  | nil => exact absurd h (List.not_mem_nil x)
  | cons y ys ih =>
    simp only [takeUntilCh] at h
    split at h
    · simp at h
    · rcases List.mem_cons.mp h with h | h
      · exact h ▸ List.mem_cons_self _ _
      · exact List.mem_cons_of_mem _ (ih h)

theorem takeUntilCh_append_of_not_mem {c : Char} {a : List Char} (b : List Char)
    (h : c ∉ a) : takeUntilCh c (a ++ b) = a ++ takeUntilCh c b := by
  induction a with
  | nil => simp
  | cons x xs ih =>
    show takeUntilCh c (x :: (xs ++ b)) = x :: (xs ++ takeUntilCh c b)
    simp only [takeUntilCh]
    rw [if_neg (by rintro rfl; exact h (List.mem_cons_self _ _))]
    exact congrArg (x :: ·) (ih (fun hm => h (List.mem_cons_of_mem _ hm)))

theorem dropAfterCh_append_of_not_mem {c : Char} {a : List Char} (b : List Char)
    (h : c ∉ a) : dropAfterCh c (a ++ b) = dropAfterCh c b := by
  induction a with
  | nil => simp
  | cons x xs ih =>
    show dropAfterCh c (x :: (xs ++ b)) = dropAfterCh c b
    simp only [dropAfterCh]
    rw [if_neg (by rintro rfl; exact h (List.mem_cons_self _ _))]
    exact ih (fun hm => h (List.mem_cons_of_mem _ hm))

theorem takeUntilCh_cons_self (c : Char) (b : List Char) :
    takeUntilCh c (c :: b) = [] := by
  simp [takeUntilCh]

theorem dropAfterCh_cons_self (c : Char) (b : List Char) :
    dropAfterCh c (c :: b) = some b := by
  simp [dropAfterCh]

theorem dropAfterCh_eq_some {c : Char} {l r : List Char}
    (h : dropAfterCh c l = some r) : l = takeUntilCh c l ++ c :: r := by
  induction l with
  | nil => simp [dropAfterCh] at h
  | cons x xs ih =>
    simp only [dropAfterCh] at h
    simp only [takeUntilCh]
    by_cases hx : x = c
    · subst hx
      rw [if_pos rfl] at h ⊢
      simp at h
      simp [h]
    · rw [if_neg hx] at h ⊢
      show x :: xs = x :: (takeUntilCh c xs ++ c :: r)
      exact congrArg (x :: ·) (ih h)

theorem mem_of_mem_dropAfterCh {c x : Char} {l r : List Char}
    (h : dropAfterCh c l = some r) (hx : x ∈ r) : x ∈ l := by
  rw [dropAfterCh_eq_some h]
  exact List.mem_append_right _ (List.mem_cons_of_mem _ hx)

theorem takeUntilCh_length_le (c : Char) (l : List Char) :
    (takeUntilCh c l).length ≤ l.length := by
  induction l with
  | nil => simp [takeUntilCh]
  | cons x xs ih =>
    simp only [takeUntilCh]
    split
    · simp
    · simpa using Nat.succ_le_succ ih

theorem splitCh_nil (sep : Char) : splitCh sep [] = [[]] := rfl

theorem splitCh_cons (sep c : Char) (rest : List Char) :
    splitCh sep (c :: rest) =
      if c = sep then [] :: splitCh sep rest
      else (c :: (splitCh sep rest).headD []) :: (splitCh sep rest).tail := rfl

theorem splitCh_ne_nil (sep : Char) (l : List Char) : splitCh sep l ≠ [] := by
  induction l with
  | nil => rw [splitCh_nil]; simp
  | cons c rest ih =>
    rw [splitCh_cons]
    split <;> simp

theorem exists_splitCh_cons (sep : Char) (l : List Char) :
    ∃ h t, splitCh sep l = h :: t :=
  List.exists_cons_of_ne_nil (splitCh_ne_nil sep l)

theorem joinCh_splitCh (sep : Char) (l : List Char) :
    joinCh sep (splitCh sep l) = l := by
  induction l with
  | nil => rfl
  | cons c rest ih =>
    obtain ⟨p, t, heq⟩ := exists_splitCh_cons sep rest
    rw [heq] at ih
    rw [splitCh_cons, heq]
    by_cases hc : c = sep
    · rw [if_pos hc]
      show sep :: joinCh sep (p :: t) = c :: rest
      rw [ih, hc]
    · rw [if_neg hc]
      cases t with
      | nil =>
        show c :: p = c :: rest
        rw [show joinCh sep [p] = p from rfl] at ih
        rw [ih]
      | cons q t' =>
        show (c :: p) ++ sep :: joinCh sep (q :: t') = c :: rest
        rw [show joinCh sep (p :: q :: t') = p ++ sep :: joinCh sep (q :: t') from rfl] at ih
        simp [← ih]

theorem splitCh_cons_of_eq {sep c : Char} {rest : List Char} {q : List Char}
    {t : List (List Char)} (heq : splitCh sep rest = q :: t) :
    splitCh sep (c :: rest) = if c = sep then [] :: q :: t else (c :: q) :: t := by
  rw [splitCh_cons, heq]
  split <;> rfl

theorem sep_not_mem_of_mem_splitCh {sep : Char} {l : List Char} {p : List Char}
    (hp : p ∈ splitCh sep l) : sep ∉ p := by
  induction l generalizing p with
  | nil =>
    rw [splitCh_nil] at hp
    simp only [List.mem_singleton] at hp
    simp [hp]
  | cons c rest ih =>
    obtain ⟨q, t, heq⟩ := exists_splitCh_cons sep rest
    rw [splitCh_cons_of_eq heq] at hp
    by_cases hc : c = sep
    · rw [if_pos hc] at hp
      rcases List.mem_cons.mp hp with rfl | hp'
      · simp
      · exact ih (by rw [heq]; exact hp')
    · rw [if_neg hc] at hp
      rcases List.mem_cons.mp hp with rfl | hp'
      · intro hm
        rcases List.mem_cons.mp hm with h' | h'
        · exact hc h'.symm
        · exact ih (by rw [heq]; exact List.mem_cons_self q t) h'
      · exact ih (by rw [heq]; exact List.mem_cons_of_mem q hp')

theorem mem_of_mem_of_mem_splitCh {sep x : Char} {l : List Char} {p : List Char}
    (hp : p ∈ splitCh sep l) (hx : x ∈ p) : x ∈ l := by
  induction l generalizing p with
  | nil =>
    rw [splitCh_nil] at hp
    simp only [List.mem_singleton] at hp
    subst hp
    simp at hx
  | cons c rest ih =>
    obtain ⟨q, t, heq⟩ := exists_splitCh_cons sep rest
    rw [splitCh_cons_of_eq heq] at hp
    by_cases hc : c = sep
    · rw [if_pos hc] at hp
      rcases List.mem_cons.mp hp with rfl | hp'
      · simp at hx
      · exact List.mem_cons_of_mem _ (ih (by rw [heq]; exact hp') hx)
    · rw [if_neg hc] at hp
      rcases List.mem_cons.mp hp with rfl | hp'
      · rcases List.mem_cons.mp hx with rfl | hx'
        · exact List.mem_cons_self _ _
        · exact List.mem_cons_of_mem _
            (ih (by rw [heq]; exact List.mem_cons_self q t) hx')
      · exact List.mem_cons_of_mem _
          (ih (by rw [heq]; exact List.mem_cons_of_mem q hp') hx)

theorem splitCh_of_not_mem {sep : Char} {p : List Char} (h : sep ∉ p) :
    splitCh sep p = [p] := by
  induction p with
  | nil => rfl
  | cons c rest ih =>
    rw [splitCh_cons, ih (fun hm => h (List.mem_cons_of_mem _ hm))]
    rw [if_neg (by rintro rfl; exact h (List.mem_cons_self _ _))]
    rfl

theorem splitCh_append_sep {sep : Char} {p : List Char} (r : List Char)
    (h : sep ∉ p) : splitCh sep (p ++ sep :: r) = p :: splitCh sep r := by
  induction p with
  | nil =>
    show splitCh sep (sep :: r) = [] :: splitCh sep r
    rw [splitCh_cons, if_pos rfl]
  | cons c p' ih =>
    show splitCh sep (c :: (p' ++ sep :: r)) = (c :: p') :: splitCh sep r
    rw [splitCh_cons, ih (fun hm => h (List.mem_cons_of_mem _ hm))]
    rw [if_neg (by rintro rfl; exact h (List.mem_cons_self _ _))]
    rfl

theorem splitCh_joinCh {sep : Char} {ps : List (List Char)} (hne : ps ≠ [])
    (h : ∀ p ∈ ps, sep ∉ p) : splitCh sep (joinCh sep ps) = ps := by
  induction ps with
  | nil => exact absurd rfl hne
  | cons p ps ih =>
    cases ps with
    | nil =>
      show splitCh sep p = [p]
      exact splitCh_of_not_mem (h p (List.mem_cons_self _ _))
    | cons q ps' =>
      show splitCh sep (p ++ sep :: joinCh sep (q :: ps')) = p :: q :: ps'
      rw [splitCh_append_sep _ (h p (List.mem_cons_self _ _))]
      rw [ih (by simp) (fun r hr => h r (List.mem_cons_of_mem _ hr))]

theorem mem_joinCh {sep x : Char} {ps : List (List Char)}
    (h : x ∈ joinCh sep ps) : x = sep ∨ ∃ p ∈ ps, x ∈ p := by
  induction ps with
  | nil => simp [joinCh] at h
  | cons p ps ih =>
    cases ps with
    | nil =>
      right
      exact ⟨p, List.mem_cons_self _ _, h⟩
    | cons q ps' =>
      rcases List.mem_append.mp h with h' | h'
      · exact Or.inr ⟨p, List.mem_cons_self _ _, h'⟩
      · rcases List.mem_cons.mp h' with rfl | h''
        · exact Or.inl rfl
        · rcases ih h'' with h3 | ⟨r, hr, hxr⟩
          · exact Or.inl h3
          · exact Or.inr ⟨r, List.mem_cons_of_mem _ hr, hxr⟩

theorem joinCh_length_le_cons {sep : Char} (a : List Char) (l : List (List Char)) :
    (joinCh sep l).length ≤ (joinCh sep (a :: l)).length := by
  cases l with
  | nil => simp [joinCh]
  | cons b t =>
    show (joinCh sep (b :: t)).length ≤ (a ++ sep :: joinCh sep (b :: t)).length
    simp only [List.length_append, List.length_cons]
    omega

theorem joinCh_length_le_of_sublist {sep : Char} {l₁ l₂ : List (List Char)}
    (h : l₁.Sublist l₂) : (joinCh sep l₁).length ≤ (joinCh sep l₂).length := by
  induction h with
  | slnil => simp
  | @cons l₁' l₂' a h ih => exact le_trans ih (joinCh_length_le_cons a l₂')
  | @cons₂ l₁' l₂' a h ih =>
    cases l₁' with
    | nil =>
      cases l₂' with
      | nil => simp
      | cons b t =>
        show (joinCh sep [a]).length ≤ (a ++ sep :: joinCh sep (b :: t)).length
        simp [joinCh]
    | cons c t₁ =>
      cases l₂' with
      | nil => simp at h
      | cons b t₂ =>
        show (a ++ sep :: joinCh sep (c :: t₁)).length ≤ (a ++ sep :: joinCh sep (b :: t₂)).length
        simp only [List.length_append, List.length_cons]
        omega

theorem scanParams_sublist (l : List (List Char)) : (scanParams l).Sublist l := by
  induction l with
  | nil => simp [scanParams]
  | cons p rest ih =>
    simp only [scanParams]
    split
    · exact ih.cons₂ p
    · split
      · exact List.nil_sublist _
      · exact ih.cons p

theorem keeperParam_of_mem_scanParams {l : List (List Char)} {p : List Char}
    (h : p ∈ scanParams l) : keeperParam p = true := by
  induction l with
  | nil => simp [scanParams] at h
  | cons q rest ih =>
    simp only [scanParams] at h
    split at h
    · rcases List.mem_cons.mp h with rfl | h'
      · assumption
      · exact ih h'
    · split at h
      · simp at h
      · exact ih h

theorem scanParams_of_all_keepers {l : List (List Char)}
    (h : ∀ p ∈ l, keeperParam p = true) : scanParams l = l := by
  induction l with
  | nil => rfl
  | cons p rest ih =>
    simp only [scanParams]
    rw [if_pos (h p (List.mem_cons_self _ _)),
      ih (fun q hq => h q (List.mem_cons_of_mem _ hq))]

theorem not_mem_of_dropAfterCh_eq_none {c : Char} {l : List Char}
    (h : dropAfterCh c l = none) : c ∉ l := by
  induction l with
  | nil => simp
  | cons x xs ih =>
    simp only [dropAfterCh] at h
    by_cases hx : x = c
    · rw [if_pos hx] at h
      exact absurd h (by simp)
    · rw [if_neg hx] at h
      intro hm
      rcases List.mem_cons.mp hm with h' | h'
      · exact hx h'.symm
      · exact ih h h'

/-! ### Unfolding lemmas for `clean_url` -/

theorem clean_url_of_none {url : List Char}
    (h : dropAfterCh '?' (takeUntilCh '#' url) = none) :
    clean_url url = takeUntilCh '?' (takeUntilCh '#' url) := by
  simp only [clean_url]
  rw [h]

theorem clean_url_of_some {url query : List Char}
    (h : dropAfterCh '?' (takeUntilCh '#' url) = some query) :
    clean_url url =
      if (scanParams (splitCh '&' query)).isEmpty then
        takeUntilCh '?' (takeUntilCh '#' url)
      else
        takeUntilCh '?' (takeUntilCh '#' url) ++
          '?' :: joinCh '&' (scanParams (splitCh '&' query)) := by
  simp only [clean_url]
  rw [h]

/-- A string containing neither `#` nor `?` is left unchanged by `clean_url`. -/
theorem clean_url_of_plain {v : List Char} (h1 : '#' ∉ v) (h2 : '?' ∉ v) :
    clean_url v = v := by
  rw [clean_url_of_none
    (by rw [takeUntilCh_of_not_mem h1]; exact dropAfterCh_of_not_mem h2)]
  rw [takeUntilCh_of_not_mem h1, takeUntilCh_of_not_mem h2]

/-- C2 (claim theorem): `clean_url` is idempotent — cleaning an already
cleaned URL returns it unchanged, for every input string. -/
theorem c2_clean_url_idempotent (u : List Char) :
    clean_url (clean_url u) = clean_url u := by
  have hhc : '#' ∉ takeUntilCh '#' u := not_mem_takeUntilCh '#' u
  have hqb : '?' ∉ takeUntilCh '?' (takeUntilCh '#' u) :=
    not_mem_takeUntilCh '?' (takeUntilCh '#' u)
  have hhb : '#' ∉ takeUntilCh '?' (takeUntilCh '#' u) :=
    fun hm => hhc (mem_of_mem_takeUntilCh hm)
  cases hq : dropAfterCh '?' (takeUntilCh '#' u) with
  | none =>
    rw [clean_url_of_none hq]
    exact clean_url_of_plain hhb hqb
  | some query =>
    rw [clean_url_of_some hq]
    by_cases he : (scanParams (splitCh '&' query)).isEmpty = true
    · rw [if_pos he]
      exact clean_url_of_plain hhb hqb
    · rw [if_neg he]
      have hne : scanParams (splitCh '&' query) ≠ [] := by
        intro h0
        rw [h0] at he
        simp at he
      have hkeep : ∀ p ∈ scanParams (splitCh '&' query), keeperParam p = true :=
        fun p hp => keeperParam_of_mem_scanParams hp
      have hmem : ∀ p ∈ scanParams (splitCh '&' query), p ∈ splitCh '&' query :=
        fun p hp => (scanParams_sublist _).subset hp
      have hamp : ∀ p ∈ scanParams (splitCh '&' query), '&' ∉ p :=
        fun p hp => sep_not_mem_of_mem_splitCh (hmem p hp)
      have hhp : ∀ p ∈ scanParams (splitCh '&' query), '#' ∉ p :=
        fun p hp hx =>
          hhc (mem_of_mem_dropAfterCh hq (mem_of_mem_of_mem_splitCh (hmem p hp) hx))
      have hhj : '#' ∉ joinCh '&' (scanParams (splitCh '&' query)) := by
        intro hx
        rcases mem_joinCh hx with h' | ⟨p, hp, hxp⟩
        · exact absurd h' (by decide)
        · exact hhp p hp hxp
      have hv_hash :
          '#' ∉ takeUntilCh '?' (takeUntilCh '#' u) ++
            '?' :: joinCh '&' (scanParams (splitCh '&' query)) := by
        intro hx
        rcases List.mem_append.mp hx with h' | h'
        · exact hhb h'
        · rcases List.mem_cons.mp h' with h'' | h''
          · exact absurd h'' (by decide)
          · exact hhj h''
      have htk :
          takeUntilCh '#'
            (takeUntilCh '?' (takeUntilCh '#' u) ++
              '?' :: joinCh '&' (scanParams (splitCh '&' query))) =
          takeUntilCh '?' (takeUntilCh '#' u) ++
            '?' :: joinCh '&' (scanParams (splitCh '&' query)) :=
        takeUntilCh_of_not_mem hv_hash
      have hdrop :
          dropAfterCh '?'
            (takeUntilCh '?' (takeUntilCh '#' u) ++
              '?' :: joinCh '&' (scanParams (splitCh '&' query))) =
          some (joinCh '&' (scanParams (splitCh '&' query))) := by
        rw [dropAfterCh_append_of_not_mem _ hqb, dropAfterCh_cons_self]
      rw [clean_url_of_some (by rw [htk]; exact hdrop)]
      rw [splitCh_joinCh hne hamp, scanParams_of_all_keepers hkeep]
      rw [if_neg he]
      rw [htk, takeUntilCh_append_of_not_mem _ hqb, takeUntilCh_cons_self,
        List.append_nil]

/-! ### C7: characterization of the parameter scan -/

/-- Written from the claim text of C7: `clean_url` strips everything from the
first `#` on, and among the query parameters retains exactly those whose key
is `_skw`, `q` or `s`, scanning left to right and discarding the entire
remainder as soon as a parameter whose key starts with `_`, `hash=` or
`itmmeta=` (and which is not itself retained) is met. -/
def clean_url_spec (url : List Char) : List Char :=
  let noFrag := takeUntilCh '#' url
  match dropAfterCh '?' noFrag with
  | none => takeUntilCh '?' noFrag
  | some query =>
    let kept :=
      ((splitCh '&' query).takeWhile
        (fun p => keeperParam p || !breakerParam p)).filter keeperParam
    if kept.isEmpty then takeUntilCh '?' noFrag
    else takeUntilCh '?' noFrag ++ '?' :: joinCh '&' kept

theorem scanParams_eq_takeWhile_filter (l : List (List Char)) :
    scanParams l =
      (l.takeWhile (fun p => keeperParam p || !breakerParam p)).filter
        keeperParam := by
  induction l with
  | nil => rfl
  | cons p rest ih =>
    simp only [scanParams]
    by_cases hk : keeperParam p
    · rw [if_pos hk]
      rw [List.takeWhile_cons, if_pos (by rw [hk]; rfl)]
      rw [List.filter_cons, if_pos (by rw [hk])]
      rw [ih]
    · rw [if_neg hk]
      have hk' : keeperParam p = false := Bool.eq_false_iff.mpr hk
      by_cases hb : breakerParam p
      · rw [if_pos hb]
        rw [List.takeWhile_cons, if_neg (by rw [hb, hk']; simp)]
        rfl
      · rw [if_neg hb]
        have hb' : breakerParam p = false := Bool.eq_false_iff.mpr hb
        rw [List.takeWhile_cons, if_pos (by rw [hb']; simp)]
        rw [List.filter_cons, if_neg (by rw [hk']; simp)]
        rw [ih]

/-- C7 (claim theorem): `clean_url` strips everything from the first `#` on
and retains exactly the query parameters whose key is `_skw`, `q` or `s`,
scanning left to right and discarding the whole remainder of the query as
soon as a tracking-noise parameter (key starting `_`, `hash=` or `itmmeta=`)
is encountered. -/
theorem c7_clean_url_matches_spec (u : List Char) :
    clean_url u = clean_url_spec u := by
  cases hq : dropAfterCh '?' (takeUntilCh '#' u) with
  | none =>
    rw [clean_url_of_none hq]
    simp only [clean_url_spec]
    rw [hq]
  | some query =>
    rw [clean_url_of_some hq]
    simp only [clean_url_spec]
    rw [hq]
    rw [scanParams_eq_takeWhile_filter]

/-! ### Model of Python `urllib.parse.urlparse` (the fields used by
`is_link_valid`: `scheme`, `netloc` and `path`).  The algorithm follows
CPython `urlsplit`: an RFC scheme (first character alphabetic, remaining
characters alphanumeric or `+`/`-`/`.`, terminated by the first `:`), a
network location after a leading `//` running to the first `/`, `?` or `#`,
the fragment split at the first `#`, the query at the first `?`, and for
schemes using parameters the `;params` suffix of the last path segment
split off by `urlparse`. -/

/-- The parsed fields of a URL used by `is_link_valid`. -/
structure UrlParts where
  scheme : List Char
  netloc : List Char
  path : List Char
  deriving DecidableEq

/-- Characters allowed in a URL scheme after the first. -/
def scheme_char (c : Char) : Bool :=
  c.isAlphanum || c = '+' || c = '-' || c = '.'

/-- Whether the first character is ASCII alphabetic. -/
def headAlpha : List Char → Bool
  | [] => false
  | c :: _ => c.isAlpha

/-- The scheme step of `urlsplit`: returns the lowercased scheme and the
remainder after the colon, or an empty scheme and the unchanged URL. -/
def splitScheme (url : List Char) : List Char × List Char :=
  match dropAfterCh ':' url with
  | none => ([], url)
  | some rest =>
    let pre := takeUntilCh ':' url
    if !pre.isEmpty && headAlpha pre && pre.all scheme_char
    then (toLowerStr pre, rest) else ([], url)

/-- The netloc step of `urlsplit`: the segment up to the first `/`, `?` or
`#`, paired with the remainder (which keeps its delimiter). -/
def splitNetloc2 : List Char → List Char × List Char
  | [] => ([], [])
  | c :: rest =>
    if c = '/' || c = '?' || c = '#' then ([], c :: rest)
    else
      let p := splitNetloc2 rest
      (c :: p.1, p.2)

/-- Index of the first occurrence of `c`, if any (Python `s.find(c)`). -/
def indexOfCh (c : Char) : List Char → Option Nat
  | [] => none
  | x :: xs => if x = c then some 0 else (indexOfCh c xs).map (· + 1)

/-- Index of the last occurrence of `c`, if any (Python `s.rfind(c)`). -/
def lastIndexOfCh (c : Char) (l : List Char) : Option Nat :=
  (indexOfCh c l.reverse).map (fun i => l.length - 1 - i)

/-- The schemes for which `urlparse` splits `;params` off the path. -/
def uses_params : List (List Char) :=
  ["".toList, "ftp".toList, "hdl".toList, "prospero".toList, "http".toList,
   "imap".toList, "https".toList, "shttp".toList, "rtsp".toList,
   "rtspu".toList, "sip".toList, "sips".toList, "mms".toList, "sftp".toList,
   "tel".toList]

/-- CPython `urllib.parse._splitparams` restricted to the path component:
when the path contains a `/`, split at the first `;` at or after the last
`/`; otherwise split at the first `;`. -/
def splitparams (p : List Char) : List Char :=
  if p.contains '/' then
    match lastIndexOfCh '/' p with
    | none => p
    | some j =>
      match indexOfCh ';' (p.drop j) with
      | none => p
      | some k => p.take (j + k)
  else
    match indexOfCh ';' p with
    | none => p
    | some i => p.take i

/-- The steps of `urlsplit`/`urlparse` after the scheme has been removed:
netloc after a leading `//` (as in CPython, `url[:2] == '//'`), fragment at
the first `#`, query at the first `?`, `;params` split for the schemes that
use them. -/
def urlparse_rest (scheme rest1 : List Char) : UrlParts :=
  let n : List Char × List Char :=
    if leadsWith "//".toList rest1 then splitNetloc2 (rest1.drop 2)
    else ([], rest1)
  let path0 := takeUntilCh '?' (takeUntilCh '#' n.2)
  let path :=
    if uses_params.contains scheme && path0.contains ';' then splitparams path0
    else path0
  ⟨scheme, n.1, path⟩

/-- Model of `urlparse(url)` for the `scheme`, `netloc` and `path` fields. -/
def urlparse_m (url : List Char) : UrlParts :=
  urlparse_rest (splitScheme url).1 (splitScheme url).2

/-! ### `Browser.is_link_valid` and `Browser.get_navigable`
(src/sources/browser.py lines 206-241) -/

/-- The blocked image extensions of `is_link_valid`. -/
def image_extensions : List (List Char) :=
  [".jpg".toList, ".jpeg".toList, ".png".toList, ".gif".toList,
   ".bmp".toList, ".tiff".toList, ".webp".toList]

/-- The blocked metadata extensions of `is_link_valid`. -/
def metadata_extensions : List (List Char) :=
  [".ico".toList, ".xml".toList, ".json".toList, ".rss".toList,
   ".atom".toList]

/-- The regex check `re.search(r'/\d+$', path)`: the path ends in a slash
followed by one or more (ASCII) digits. -/
def endsNumericSegment (p : List Char) : Bool :=
  let r := p.reverse
  let ds := r.takeWhile Char.isDigit
  !ds.isEmpty && (r.drop ds.length).headD ' ' = '/'

/-- Model of `Browser.is_link_valid`: rejects over-long URLs, URLs without
scheme or host, paths ending in a bare numeric segment, and URLs whose
lowercased text ends with a blocked image/metadata extension. -/
def is_link_valid (url : List Char) : Bool :=
  if url.length > 64 then false
  else
    let parsed := urlparse_m url
    if parsed.scheme.isEmpty || parsed.netloc.isEmpty then false
    else if endsNumericSegment parsed.path then false
    else if (image_extensions ++ metadata_extensions).any
        (fun ext => tailsWith ext (toLowerStr url)) then false
    else true

/-- One anchor element as seen by `get_navigable`: its `href` attribute and
its `is_displayed()` state. -/
structure RawLink where
  href : List Char
  displayed : Bool
  deriving DecidableEq

/-- Model of `Browser.get_navigable`: collect anchors whose `href` starts
with `http`, then return `clean_url(href)` for the displayed ones passing
`is_link_valid`.  (`startswith(("http", "https"))` is equivalent to
`startswith("http")`.) -/
def get_navigable (elems : List RawLink) : List (List Char) :=
  let links := elems.filter (fun e => leadsWith "http".toList e.href)
  (links.filter (fun l => l.displayed && is_link_valid l.href)).map
    (fun l => clean_url l.href)

/-! ### Structural lemmas about the URL parser -/

theorem scheme_char_facts {c : Char} (h : scheme_char c = true) :
    c ≠ ':' ∧ c ≠ '#' ∧ c ≠ '?' := by
  refine ⟨?_, ?_, ?_⟩ <;> rintro rfl <;> exact absurd h (by decide)

theorem leadsWith_two_slashes {b : List Char}
    (h : leadsWith "//".toList b = true) : ∃ r, b = '/' :: '/' :: r := by
  have h' : leadsWith ['/', '/'] b = true := h
  match b with
  | [] => exact absurd h' (by decide)
  | [c] =>
    rw [show leadsWith ['/', '/'] [c] = (decide ('/' = c) && false) from rfl] at h'
    simp at h'
  | c :: d :: r =>
    rw [show leadsWith ['/', '/'] (c :: d :: r)
        = (decide ('/' = c) && (decide ('/' = d) && true)) from rfl] at h'
    simp only [Bool.and_true, Bool.and_eq_true, decide_eq_true_eq] at h'
    exact ⟨r, by rw [← h'.1, ← h'.2]⟩

theorem splitScheme_of_decomp {pre : List Char} (rest : List Char)
    (hpre : ':' ∉ pre)
    (hcond : (!pre.isEmpty && headAlpha pre && pre.all scheme_char) = true) :
    splitScheme (pre ++ ':' :: rest) = (toLowerStr pre, rest) := by
  have hdrop : dropAfterCh ':' (pre ++ ':' :: rest) = some rest := by
    rw [dropAfterCh_append_of_not_mem _ hpre, dropAfterCh_cons_self]
  have htake : takeUntilCh ':' (pre ++ ':' :: rest) = pre := by
    rw [takeUntilCh_append_of_not_mem _ hpre, takeUntilCh_cons_self,
      List.append_nil]
  simp only [splitScheme]
  rw [hdrop, htake]
  show (if (!pre.isEmpty && headAlpha pre && pre.all scheme_char) = true
      then (toLowerStr pre, rest) else ([], pre ++ ':' :: rest))
    = (toLowerStr pre, rest)
  rw [if_pos hcond]

theorem splitScheme_eq_of_scheme_ne {u : List Char}
    (h : (splitScheme u).1 ≠ []) :
    ∃ pre rest, u = pre ++ ':' :: rest ∧ ':' ∉ pre ∧
      (!pre.isEmpty && headAlpha pre && pre.all scheme_char) = true ∧
      splitScheme u = (toLowerStr pre, rest) := by
  cases hd : dropAfterCh ':' u with
  | none =>
    have hsp : splitScheme u = ([], u) := by
      simp only [splitScheme]
      rw [hd]
    rw [hsp] at h
    exact absurd rfl h
  | some rest =>
    by_cases hc : (!(takeUntilCh ':' u).isEmpty && headAlpha (takeUntilCh ':' u)
        && (takeUntilCh ':' u).all scheme_char) = true
    · have hsp : splitScheme u = (toLowerStr (takeUntilCh ':' u), rest) := by
        simp only [splitScheme]
        rw [hd]
        show (if (!(takeUntilCh ':' u).isEmpty && headAlpha (takeUntilCh ':' u)
            && (takeUntilCh ':' u).all scheme_char) = true
          then (toLowerStr (takeUntilCh ':' u), rest) else ([], u))
          = (toLowerStr (takeUntilCh ':' u), rest)
        rw [if_pos hc]
      exact ⟨takeUntilCh ':' u, rest, dropAfterCh_eq_some hd,
        not_mem_takeUntilCh ':' u, hc, hsp⟩
    · have hsp : splitScheme u = ([], u) := by
        simp only [splitScheme]
        rw [hd]
        show (if (!(takeUntilCh ':' u).isEmpty && headAlpha (takeUntilCh ':' u)
            && (takeUntilCh ':' u).all scheme_char) = true
          then (toLowerStr (takeUntilCh ':' u), rest) else ([], u))
          = ([], u)
        rw [if_neg hc]
      rw [hsp] at h
      exact absurd rfl h

theorem splitNetloc2_stop {X : List Char}
    (hX : X = [] ∨ ∃ c r, X = c :: r ∧ (c = '/' || c = '?' || c = '#') = true) :
    splitNetloc2 X = ([], X) := by
  rcases hX with rfl | ⟨c, r, rfl, hc⟩
  · rfl
  · simp only [splitNetloc2]
    rw [if_pos hc]

theorem splitNetloc2_append {nl X : List Char}
    (hnl : ∀ c ∈ nl, (c = '/' || c = '?' || c = '#') = false)
    (hX : X = [] ∨ ∃ c r, X = c :: r ∧ (c = '/' || c = '?' || c = '#') = true) :
    splitNetloc2 (nl ++ X) = (nl, X) := by
  induction nl with
  | nil => simpa using splitNetloc2_stop hX
  | cons c nl' ih =>
    show splitNetloc2 (c :: (nl' ++ X)) = (c :: nl', X)
    simp only [splitNetloc2]
    rw [if_neg (by rw [hnl c (List.mem_cons_self _ _)]; simp)]
    rw [ih (fun d hd => hnl d (List.mem_cons_of_mem _ hd))]

theorem splitNetloc2_eq (r : List Char) :
    r = (splitNetloc2 r).1 ++ (splitNetloc2 r).2 ∧
      (∀ c ∈ (splitNetloc2 r).1, (c = '/' || c = '?' || c = '#') = false) ∧
      ((splitNetloc2 r).2 = [] ∨
        ∃ c rest, (splitNetloc2 r).2 = c :: rest ∧
          (c = '/' || c = '?' || c = '#') = true) := by
  induction r with
  | nil => exact ⟨rfl, by simp [splitNetloc2], Or.inl rfl⟩
  | cons c rest ih =>
    by_cases hc : (c = '/' || c = '?' || c = '#') = true
    · refine ⟨?_, ?_, ?_⟩ <;> simp only [splitNetloc2, if_pos hc]
      · simp
      · simp
      · exact Or.inr ⟨c, rest, rfl, hc⟩
    · have hc' : (c = '/' || c = '?' || c = '#') = false :=
        Bool.eq_false_iff.mpr hc
      obtain ⟨ih1, ih2, ih3⟩ := ih
      refine ⟨?_, ?_, ?_⟩ <;> simp only [splitNetloc2, if_neg hc]
      · conv_lhs => rw [ih1]
        rw [List.cons_append]
      · intro d hd
        rcases List.mem_cons.mp hd with rfl | hd'
        · exact hc'
        · exact ih2 d hd'
      · exact ih3

/-- Computation of `urlparse_rest` when the remainder has a netloc. -/
theorem urlparse_rest_netloc {nl X : List Char} (a : List Char)
    (hnl : ∀ c ∈ nl, (c = '/' || c = '?' || c = '#') = false)
    (hX : X = [] ∨ ∃ c r, X = c :: r ∧ (c = '/' || c = '?' || c = '#') = true) :
    urlparse_rest a ('/' :: '/' :: (nl ++ X)) =
      ⟨a, nl,
        if uses_params.contains a &&
            (takeUntilCh '?' (takeUntilCh '#' X)).contains ';' then
          splitparams (takeUntilCh '?' (takeUntilCh '#' X))
        else takeUntilCh '?' (takeUntilCh '#' X)⟩ := by
  simp only [urlparse_rest]
  rw [if_pos (show leadsWith "//".toList ('/' :: '/' :: (nl ++ X)) = true
    from rfl)]
  simp only [List.drop_succ_cons, List.drop_zero]
  rw [splitNetloc2_append hnl hX]

/-- Computation of `urlparse_rest` when the remainder has no `//`. -/
theorem urlparse_rest_no_slash {b : List Char} (a : List Char)
    (h : leadsWith "//".toList b = false) :
    urlparse_rest a b =
      ⟨a, [],
        if uses_params.contains a &&
            (takeUntilCh '?' (takeUntilCh '#' b)).contains ';' then
          splitparams (takeUntilCh '?' (takeUntilCh '#' b))
        else takeUntilCh '?' (takeUntilCh '#' b)⟩ := by
  simp only [urlparse_rest]
  rw [if_neg (by rw [h]; exact Bool.false_ne_true)]

/-- Computation of `urlparse_m` on a string decomposed as scheme, `://`,
netloc and remainder. -/
theorem urlparse_m_of_decomp {pre nl X : List Char}
    (hpre : ':' ∉ pre)
    (hcond : (!pre.isEmpty && headAlpha pre && pre.all scheme_char) = true)
    (hnl : ∀ c ∈ nl, (c = '/' || c = '?' || c = '#') = false)
    (hX : X = [] ∨ ∃ c r, X = c :: r ∧ (c = '/' || c = '?' || c = '#') = true) :
    urlparse_m (pre ++ ':' :: '/' :: '/' :: (nl ++ X)) =
      ⟨toLowerStr pre, nl,
        if uses_params.contains (toLowerStr pre) &&
            (takeUntilCh '?' (takeUntilCh '#' X)).contains ';' then
          splitparams (takeUntilCh '?' (takeUntilCh '#' X))
        else takeUntilCh '?' (takeUntilCh '#' X)⟩ := by
  have hs : splitScheme (pre ++ ':' :: '/' :: '/' :: (nl ++ X)) =
      (toLowerStr pre, '/' :: '/' :: (nl ++ X)) :=
    splitScheme_of_decomp _ hpre hcond
  rw [urlparse_m, hs]
  exact urlparse_rest_netloc (toLowerStr pre) hnl hX

theorem takeUntilCh_cons (c x : Char) (xs : List Char) :
    takeUntilCh c (x :: xs) = if x = c then [] else x :: takeUntilCh c xs := rfl

/-- Every URL whose parse has a scheme and a netloc decomposes as
`scheme ':' '/' '/' netloc remainder`. -/
theorem urlparse_decomp (u : List Char)
    (hs : (urlparse_m u).scheme ≠ []) (hn : (urlparse_m u).netloc ≠ []) :
    ∃ pre nl X, u = pre ++ ':' :: '/' :: '/' :: (nl ++ X) ∧ ':' ∉ pre ∧
      (!pre.isEmpty && headAlpha pre && pre.all scheme_char) = true ∧
      (∀ c ∈ nl, (c = '/' || c = '?' || c = '#') = false) ∧
      (X = [] ∨ ∃ c r, X = c :: r ∧ (c = '/' || c = '?' || c = '#') = true) := by
  have hs1 : (splitScheme u).1 ≠ [] := hs
  obtain ⟨pre, rest, hu, hpre, hcond, hsp⟩ := splitScheme_eq_of_scheme_ne hs1
  have hur : urlparse_m u = urlparse_rest (toLowerStr pre) rest := by
    rw [urlparse_m, hsp]
  cases hlw : leadsWith "//".toList rest with
  | false =>
    rw [hur, urlparse_rest_no_slash _ hlw] at hn
    exact absurd rfl hn
  | true =>
    obtain ⟨r, hr⟩ := leadsWith_two_slashes hlw
    obtain ⟨e1, e2, e3⟩ := splitNetloc2_eq r
    exact ⟨pre, (splitNetloc2 r).1, (splitNetloc2 r).2,
      by rw [hu, hr]; exact congrArg _ (congrArg _ (congrArg _ (congrArg _ e1))),
      hpre, hcond, e2, e3⟩

/-- The parse components of a URL in decomposed form. -/
theorem urlparse_fields_of_decomp {pre nl X : List Char} (u : List Char)
    (hu : u = pre ++ ':' :: '/' :: '/' :: (nl ++ X))
    (hpre : ':' ∉ pre)
    (hcond : (!pre.isEmpty && headAlpha pre && pre.all scheme_char) = true)
    (hnl : ∀ c ∈ nl, (c = '/' || c = '?' || c = '#') = false)
    (hX : X = [] ∨ ∃ c r, X = c :: r ∧ (c = '/' || c = '?' || c = '#') = true) :
    (urlparse_m u).scheme = toLowerStr pre ∧ (urlparse_m u).netloc = nl := by
  rw [hu, urlparse_m_of_decomp hpre hcond hnl hX]
  exact ⟨rfl, rfl⟩

/-- The shape of the path-before-query component of the post-netloc
remainder: it is empty or starts with a slash. -/
theorem path0_shape {X : List Char}
    (hX : X = [] ∨ ∃ c r, X = c :: r ∧ (c = '/' || c = '?' || c = '#') = true) :
    takeUntilCh '?' (takeUntilCh '#' X) = [] ∨
      ∃ t, takeUntilCh '?' (takeUntilCh '#' X) = '/' :: t := by
  rcases hX with rfl | ⟨c, r, rfl, hc⟩
  · exact Or.inl rfl
  · have hc' : c = '/' ∨ c = '?' ∨ c = '#' := by
      have h0 : (c = '/' ∨ c = '?') ∨ c = '#' := by simpa using hc
      tauto
    rcases hc' with rfl | rfl | rfl
    · right
      rw [takeUntilCh_cons '#', if_neg (by decide),
        takeUntilCh_cons '?', if_neg (by decide)]
      exact ⟨_, rfl⟩
    · left
      rw [takeUntilCh_cons '#', if_neg (by decide), takeUntilCh_cons_self]
    · left
      rw [takeUntilCh_cons_self]
      rfl

theorem path0_stop {X : List Char}
    (hX : X = [] ∨ ∃ c r, X = c :: r ∧ (c = '/' || c = '?' || c = '#') = true) :
    takeUntilCh '?' (takeUntilCh '#' X) = [] ∨
      ∃ c r, takeUntilCh '?' (takeUntilCh '#' X) = c :: r ∧
        (c = '/' || c = '?' || c = '#') = true := by
  rcases path0_shape hX with h | ⟨t, ht⟩
  · exact Or.inl h
  · exact Or.inr ⟨'/', t, ht, by decide⟩

/-- Parsing is unchanged when the post-netloc remainder is replaced by its
path-before-query component. -/
theorem urlparse_base_eq {pre nl X : List Char}
    (hpre : ':' ∉ pre)
    (hcond : (!pre.isEmpty && headAlpha pre && pre.all scheme_char) = true)
    (hnl : ∀ c ∈ nl, (c = '/' || c = '?' || c = '#') = false)
    (hX : X = [] ∨ ∃ c r, X = c :: r ∧ (c = '/' || c = '?' || c = '#') = true) :
    urlparse_m
        (pre ++ ':' :: '/' :: '/' :: (nl ++ takeUntilCh '?' (takeUntilCh '#' X)))
      = urlparse_m (pre ++ ':' :: '/' :: '/' :: (nl ++ X)) := by
  have hP0_q : '?' ∉ takeUntilCh '?' (takeUntilCh '#' X) :=
    not_mem_takeUntilCh _ _
  have hP0_hash : '#' ∉ takeUntilCh '?' (takeUntilCh '#' X) :=
    fun hm => not_mem_takeUntilCh '#' X (mem_of_mem_takeUntilCh hm)
  rw [urlparse_m_of_decomp hpre hcond hnl (path0_stop hX),
    urlparse_m_of_decomp hpre hcond hnl hX,
    takeUntilCh_of_not_mem hP0_hash, takeUntilCh_of_not_mem hP0_q]

/-- Main preservation lemma for C1: for a URL with scheme and netloc,
cleaning does not change the parsed scheme, netloc or path. -/
theorem urlparse_clean_url {u : List Char}
    (hs : (urlparse_m u).scheme ≠ []) (hn : (urlparse_m u).netloc ≠ []) :
    urlparse_m (clean_url u) = urlparse_m u := by
  obtain ⟨pre, nl, X, hu, hpre, hcond, hnl, hX⟩ := urlparse_decomp u hs hn
  simp only [Bool.and_eq_true] at hcond
  obtain ⟨⟨hc1, hc2⟩, hc3⟩ := hcond
  have hcond' : (!pre.isEmpty && headAlpha pre && pre.all scheme_char) = true := by
    simp only [Bool.and_eq_true]
    exact ⟨⟨hc1, hc2⟩, hc3⟩
  have hpre_hash : '#' ∉ pre := fun hm =>
    (scheme_char_facts (List.all_eq_true.mp hc3 _ hm)).2.1 rfl
  have hpre_q : '?' ∉ pre := fun hm =>
    (scheme_char_facts (List.all_eq_true.mp hc3 _ hm)).2.2 rfl
  have hnl_hash : '#' ∉ nl := fun hm => absurd (hnl _ hm) (by decide)
  have hnl_q : '?' ∉ nl := fun hm => absurd (hnl _ hm) (by decide)
  have hA_hash : '#' ∉ pre ++ ':' :: '/' :: '/' :: nl := by
    intro hm
    simp only [List.mem_append, List.mem_cons] at hm
    rcases hm with h | h | h | h | h
    · exact hpre_hash h
    · exact absurd h (by decide)
    · exact absurd h (by decide)
    · exact absurd h (by decide)
    · exact hnl_hash h
  have hA_q : '?' ∉ pre ++ ':' :: '/' :: '/' :: nl := by
    intro hm
    simp only [List.mem_append, List.mem_cons] at hm
    rcases hm with h | h | h | h | h
    · exact hpre_q h
    · exact absurd h (by decide)
    · exact absurd h (by decide)
    · exact absurd h (by decide)
    · exact hnl_q h
  have hassoc : ∀ Y : List Char,
      pre ++ ':' :: '/' :: '/' :: (nl ++ Y)
        = (pre ++ ':' :: '/' :: '/' :: nl) ++ Y := by
    intro Y
    simp
  have hTk : takeUntilCh '#' u
      = (pre ++ ':' :: '/' :: '/' :: nl) ++ takeUntilCh '#' X := by
    rw [hu, hassoc, takeUntilCh_append_of_not_mem _ hA_hash]
  have hBase : takeUntilCh '?' (takeUntilCh '#' u)
      = (pre ++ ':' :: '/' :: '/' :: nl) ++
          takeUntilCh '?' (takeUntilCh '#' X) := by
    rw [hTk, takeUntilCh_append_of_not_mem _ hA_q]
  have hDq : dropAfterCh '?' (takeUntilCh '#' u)
      = dropAfterCh '?' (takeUntilCh '#' X) := by
    rw [hTk, dropAfterCh_append_of_not_mem _ hA_q]
  have hP0_q : '?' ∉ takeUntilCh '?' (takeUntilCh '#' X) :=
    not_mem_takeUntilCh _ _
  have hP0_hash : '#' ∉ takeUntilCh '?' (takeUntilCh '#' X) :=
    fun hm => not_mem_takeUntilCh '#' X (mem_of_mem_takeUntilCh hm)
  cases hq2 : dropAfterCh '?' (takeUntilCh '#' X) with
  | none =>
    have hcu : clean_url u
        = (pre ++ ':' :: '/' :: '/' :: nl) ++
            takeUntilCh '?' (takeUntilCh '#' X) := by
      rw [clean_url_of_none (by rw [hDq]; exact hq2)]
      exact hBase
    rw [hcu, ← hassoc, urlparse_base_eq hpre hcond' hnl hX, ← hu]
  | some q =>
    by_cases he : (scanParams (splitCh '&' q)).isEmpty = true
    · have hcu : clean_url u
          = (pre ++ ':' :: '/' :: '/' :: nl) ++
              takeUntilCh '?' (takeUntilCh '#' X) := by
        rw [clean_url_of_some (by rw [hDq]; exact hq2), if_pos he]
        exact hBase
      rw [hcu, ← hassoc, urlparse_base_eq hpre hcond' hnl hX, ← hu]
    · have hjoin_hash : '#' ∉ joinCh '&' (scanParams (splitCh '&' q)) := by
        intro hm
        rcases mem_joinCh hm with h | ⟨p, hp, hxp⟩
        · exact absurd h (by decide)
        · have hpq : p ∈ splitCh '&' q := (scanParams_sublist _).subset hp
          exact not_mem_takeUntilCh '#' X
            (mem_of_mem_dropAfterCh hq2 (mem_of_mem_of_mem_splitCh hpq hxp))
      have hX'_hash :
          '#' ∉ takeUntilCh '?' (takeUntilCh '#' X) ++
            '?' :: joinCh '&' (scanParams (splitCh '&' q)) := by
        intro hm
        simp only [List.mem_append, List.mem_cons] at hm
        rcases hm with h | h | h
        · exact hP0_hash h
        · exact absurd h (by decide)
        · exact hjoin_hash h
      have hX'stop :
          (takeUntilCh '?' (takeUntilCh '#' X) ++
              '?' :: joinCh '&' (scanParams (splitCh '&' q))) = [] ∨
            ∃ c r,
              (takeUntilCh '?' (takeUntilCh '#' X) ++
                  '?' :: joinCh '&' (scanParams (splitCh '&' q))) = c :: r ∧
                (c = '/' || c = '?' || c = '#') = true := by
        rcases path0_shape hX with h0 | ⟨t, ht⟩
        · rw [h0]
          exact Or.inr ⟨'?', _, rfl, by decide⟩
        · rw [ht]
          exact Or.inr ⟨'/', _, rfl, by decide⟩
      have hcu : clean_url u
          = (pre ++ ':' :: '/' :: '/' :: nl) ++
              (takeUntilCh '?' (takeUntilCh '#' X) ++
                '?' :: joinCh '&' (scanParams (splitCh '&' q))) := by
        rw [clean_url_of_some (by rw [hDq]; exact hq2), if_neg he, hBase]
        simp [List.append_assoc]
      rw [hcu, ← hassoc]
      rw [urlparse_m_of_decomp hpre hcond' hnl hX'stop]
      conv_rhs => rw [hu, urlparse_m_of_decomp hpre hcond' hnl hX]
      have h1 : takeUntilCh '#'
          (takeUntilCh '?' (takeUntilCh '#' X) ++
            '?' :: joinCh '&' (scanParams (splitCh '&' q)))
          = takeUntilCh '?' (takeUntilCh '#' X) ++
            '?' :: joinCh '&' (scanParams (splitCh '&' q)) :=
        takeUntilCh_of_not_mem hX'_hash
      have h2 : takeUntilCh '?'
          (takeUntilCh '?' (takeUntilCh '#' X) ++
            '?' :: joinCh '&' (scanParams (splitCh '&' q)))
          = takeUntilCh '?' (takeUntilCh '#' X) := by
        rw [takeUntilCh_append_of_not_mem _ hP0_q, takeUntilCh_cons_self,
          List.append_nil]
      rw [h1, h2]

/-- Length bound: cleaning never lengthens a URL. -/
theorem clean_url_length_le (u : List Char) :
    (clean_url u).length ≤ u.length := by
  have h1 : (takeUntilCh '#' u).length ≤ u.length := takeUntilCh_length_le _ _
  cases hq : dropAfterCh '?' (takeUntilCh '#' u) with
  | none =>
    rw [clean_url_of_none hq]
    exact le_trans (takeUntilCh_length_le _ _) h1
  | some q =>
    rw [clean_url_of_some hq]
    by_cases he : (scanParams (splitCh '&' q)).isEmpty = true
    · rw [if_pos he]
      exact le_trans (takeUntilCh_length_le _ _) h1
    · rw [if_neg he]
      have hjoin : (joinCh '&' (scanParams (splitCh '&' q))).length
          ≤ q.length := by
        conv_rhs => rw [← joinCh_splitCh '&' q]
        exact joinCh_length_le_of_sublist (scanParams_sublist _)
      have hlen : (takeUntilCh '?' (takeUntilCh '#' u)).length + 1 + q.length
          = (takeUntilCh '#' u).length := by
        conv_rhs => rw [dropAfterCh_eq_some hq]
        simp
        omega
      simp only [List.length_append, List.length_cons]
      omega

/-- Unpacking `is_link_valid url = true`. -/
theorem is_link_valid_spec {url : List Char} (h : is_link_valid url = true) :
    url.length ≤ 64 ∧ (urlparse_m url).scheme ≠ [] ∧
    (urlparse_m url).netloc ≠ [] ∧
    endsNumericSegment (urlparse_m url).path = false := by
  simp only [is_link_valid] at h
  split_ifs at h with h1 h2 h3 h4
  simp only [Bool.or_eq_true, not_or] at h2
  obtain ⟨h2a, h2b⟩ := h2
  refine ⟨by omega, ?_, ?_, Bool.eq_false_iff.mpr h3⟩
  · intro h0
    apply h2a
    rw [h0]
    rfl
  · intro h0
    apply h2b
    rw [h0]
    rfl

/-- Unpacking membership in `get_navigable`. -/
theorem mem_get_navigable {elems : List RawLink} {s : List Char}
    (h : s ∈ get_navigable elems) :
    ∃ l ∈ elems, is_link_valid l.href = true ∧ s = clean_url l.href := by
  simp only [get_navigable, List.mem_map, List.mem_filter,
    Bool.and_eq_true] at h
  obtain ⟨l, ⟨⟨hmem, _⟩, _, hval⟩, hs⟩ := h
  exact ⟨l, hmem, hval, hs.symm⟩

/-- C1 (counterexample): the claim fails as stated.  The anchor
`http://a/x.png?y=1` passes `is_link_valid` (the raw href does not end in a
blocked extension), but the URL actually returned by `get_navigable` is the
cleaned `http://a/x.png`, which ends (case-insensitively) with `.png`, an
extension in the blocked image set. -/
theorem c1_navigable_counterexample :
    get_navigable [⟨"http://a/x.png?y=1".toList, true⟩]
        = ["http://a/x.png".toList] ∧
      tailsWith ".png".toList (toLowerStr "http://a/x.png".toList) = true ∧
      ".png".toList ∈ image_extensions := by decide

/-- C1 (amended claim theorem): every URL returned by `get_navigable` has a
non-empty scheme and host, length at most 64, and a path that does not end
in a bare numeric segment; the no-blocked-extension property holds of the
raw href before `clean_url` canonicalization (each returned URL is the
cleaning of an href that passed `is_link_valid`), but not necessarily of
the returned cleaned URL itself. -/
theorem c1_navigable_amended (elems : List RawLink) (s : List Char)
    (hmem : s ∈ get_navigable elems) :
    (urlparse_m s).scheme ≠ [] ∧ (urlparse_m s).netloc ≠ [] ∧
      s.length ≤ 64 ∧ endsNumericSegment (urlparse_m s).path = false ∧
      ∃ l ∈ elems, is_link_valid l.href = true ∧ s = clean_url l.href := by
  obtain ⟨l, hl, hval, rfl⟩ := mem_get_navigable hmem
  obtain ⟨hlen, hsch, hnet, hnum⟩ := is_link_valid_spec hval
  have hpres := urlparse_clean_url hsch hnet
  rw [hpres]
  exact ⟨hsch, hnet, le_trans (clean_url_length_le _) hlen, hnum,
    l, hl, hval, rfl⟩

/-! ### `Browser.is_sentence` (src/sources/browser.py lines 149-159).
The regex word class `\w` is modelled as alphanumeric-or-underscore. -/

/-- A character matched by the regex class `\w`. -/
def isWordChar (c : Char) : Bool :=
  c.isAlphanum || c = '_'

/-- The number of `\w+` tokens found by `re.findall`: the number of maximal
runs of word characters. -/
def countWords : List Char → Nat
  | [] => 0
  | [c] => if isWordChar c then 1 else 0
  | c :: d :: rest =>
    (if isWordChar c && !isWordChar d then 1 else 0) + countWords (d :: rest)

/-- The multi-script sentence-terminal punctuation set of `is_sentence`. -/
def sentencePunct : List Char :=
  ['.', '，', ',', '!', '?', '。', '！', '？', '।', '۔']

/-- Model of `Browser.is_sentence`. -/
def is_sentence (text0 : List Char) : Bool :=
  let text := stripL text0
  if text.any Char.isDigit then true
  else
    let word_count := countWords text
    let has_punctuation := sentencePunct.any (fun p => tailsWith [p] text)
    let is_long_enough := decide (word_count > 4)
    decide (word_count ≥ 5) && (has_punctuation || is_long_enough)

/-- Written from the claim text of C4: a stripped line is a sentence iff it
contains a digit, or has at least five word tokens, or has more than four
word tokens and ends with a sentence-terminal punctuation mark. -/
def is_sentence_spec (text0 : List Char) : Bool :=
  let text := stripL text0
  text.any Char.isDigit || decide (countWords text ≥ 5) ||
    (decide (countWords text > 4) &&
      sentencePunct.any (fun p => tailsWith [p] text))

theorem bool_c4 (a p b4 b5 : Bool) (h : b4 = b5) :
    (if a = true then true else b5 && (p || b4)) = (a || b5 || b4 && p) := by
  subst h
  cases a <;> cases p <;> cases b4 <;> rfl

/-- C4 (claim theorem): `is_sentence` agrees with the claimed
digit-or-token-count-or-punctuation rule on every line, and matches the
spec's truth table on the four sample lines. -/
theorem c4_is_sentence_spec_equiv :
    (∀ t, is_sentence t = is_sentence_spec t) ∧
      is_sentence "Hello world how are you today".toList = true ∧
      is_sentence "OK".toList = false ∧
      is_sentence "Price: 42".toList = true ∧
      is_sentence "Done.".toList = false := by
  refine ⟨?_, by decide, by decide, by decide, by decide⟩
  intro t
  simp only [is_sentence, is_sentence_spec]
  exact bool_c4 _ _ _ _ rfl

/-! ### `Browser.go_to` (src/sources/browser.py lines 123-147).
The Selenium driver is modelled as an environment value: either the page
load proceeds and the page evolves along a discrete trace polled by the
30-unit `WebDriverWait` (timeout raises `TimeoutException`, caught and
turned into `False`), or `driver.get`/the wait raises a
`WebDriverException` (caught, `False`), or some other exception is raised
(logged and re-raised). -/

/-- The observable page state polled by `go_to`'s wait predicate. -/
structure PageState where
  readyState : List Char
  pageSource : List Char

/-- The verification-challenge markers of `go_to`. -/
def challenge_keywords : List (List Char) :=
  ["checking your browser".toList, "verifying".toList, "captcha".toList]

/-- The wait predicate of `go_to`: document ready and no challenge marker in
the lowercased page source. -/
def page_loaded (st : PageState) : Bool :=
  decide (st.readyState = "complete".toList) &&
    !(challenge_keywords.any (fun k => containsSub k (toLowerStr st.pageSource)))

/-- The bounded wait: some poll within the budget satisfies the predicate
(otherwise `WebDriverWait` raises `TimeoutException`). -/
def wait_until_loaded (trace : Nat → PageState) (budget : Nat) : Bool :=
  (List.range (budget + 1)).any (fun t => page_loaded (trace t))

/-- The driver-environment outcomes relevant to `go_to`. -/
inductive NavBehavior where
  | pages (trace : Nat → PageState)
  | webDriverError (msg : List Char)
  | otherError (msg : List Char)

/-- Model of `Browser.go_to`: waits out the 30-unit budget (timeout gives
`False`), returns `False` on `WebDriverException`, re-raises anything
else. -/
def go_to (b : NavBehavior) : Except (List Char) Bool :=
  match b with
  | .pages trace => .ok (wait_until_loaded trace 30)
  | .webDriverError _ => .ok false
  | .otherError m => .error m

/-- C3 (claim theorem): `go_to` returns `false` when the challenge never
clears within the 30-unit budget, returns `false` on a transport-level
WebDriver failure, and re-raises any other unexpected exception. -/
theorem c3_go_to_failure_taxonomy :
    (∀ trace : Nat → PageState,
        (∀ t, t ≤ 30 → page_loaded (trace t) = false) →
          go_to (NavBehavior.pages trace) = Except.ok false) ∧
      (∀ m, go_to (NavBehavior.webDriverError m) = Except.ok false) ∧
      (∀ m, go_to (NavBehavior.otherError m) = Except.error m) := by
  refine ⟨?_, fun m => rfl, fun m => rfl⟩
  intro trace h
  simp only [go_to, wait_until_loaded]
  have : (List.range 31).any (fun t => page_loaded (trace t)) = false := by
    rw [List.any_eq_false]
    intro t ht
    rw [h t (Nat.lt_succ_iff.mp (List.mem_range.mp ht))]
    simp
  rw [this]

/-- The page state of a never-clearing verification screen. -/
def stuckPage : PageState :=
  ⟨"complete".toList, "Checking your BROWSER before accessing".toList⟩

/-- C3 witness: the taxonomy applied to a concrete stuck trace, a concrete
transport failure and a concrete unexpected failure. -/
theorem c3_go_to_failure_taxonomy_witness :
    go_to (NavBehavior.pages (fun _ => stuckPage)) = Except.ok false ∧
      page_loaded stuckPage = false ∧
      go_to (NavBehavior.webDriverError "dns failure".toList)
        = Except.ok false ∧
      go_to (NavBehavior.otherError "boom".toList)
        = Except.error "boom".toList := by
  refine ⟨?_, by decide, c3_go_to_failure_taxonomy.2.1 _,
    c3_go_to_failure_taxonomy.2.2 _⟩
  exact c3_go_to_failure_taxonomy.1 (fun _ => stuckPage)
    (fun t ht => show page_loaded stuckPage = false by decide)

/-! ### `Browser.click_element` (src/sources/browser.py lines 243-265),
`Browser.get_buttons_xpath` (lines 320-334), `Browser.find_and_click_btn`
(lines 346-372) and `Browser.find_and_click_submission` (lines 336-344).
The driver interactions of one click attempt are modelled as an event
enumeration. -/

/-- The driver-environment outcomes of one `click_element` call. -/
inductive ClickEvent where
  | clickOk
  | waitTimeout
  | notDisplayed
  | notEnabled
  | intercepted
  | otherError (msg : List Char)
  deriving DecidableEq

/-- Model of `Browser.click_element`.  The clickability-wait timeout raises
`TimeoutException`, caught and turned into `False`; not-displayed and
not-enabled return `False`; an intercepted click raises
`ElementClickInterceptedException`, whose handler clause names an unimported
class, so evaluating the clause raises `NameError`, which the enclosing
`except Exception` swallows, returning `False`; every other exception is
also caught by that final `except Exception` handler and turned into
`False`.  Hence no event produces a raised exception. -/
def click_element : ClickEvent → Except (List Char) Bool
  | .clickOk => .ok true
  | .waitTimeout => .ok false
  | .notDisplayed => .ok false
  | .notEnabled => .ok false
  | .intercepted => .ok false
  | .otherError _ => .ok false

/-- Whether a click event is the successful one. -/
def isClickOk : ClickEvent → Bool
  | .clickOk => true
  | _ => false

/-- One button element as seen by `get_buttons_xpath`: its text, its
`value` attribute (empty models `None`), its displayed/enabled state, and
the environment behavior of the clickability wait and the click attempt in
`find_and_click_btn`. -/
structure PageButton where
  text : List Char
  valueAttr : List Char
  displayed : Bool
  enabled : Bool
  waitClickable : Bool
  clickEv : ClickEvent

/-- The label normalization of `get_buttons_xpath`:
`(button.text or value or "").lower().replace(' ', '')`. -/
def norm_label (b : PageButton) : List Char :=
  (toLowerStr (if b.text.isEmpty then b.valueAttr else b.text)).filter
    (fun c => !decide (c = ' '))

/-- Stable insertion of one labelled button into a list sorted by ascending
label length. -/
def insertByLen (x : List Char × Nat) :
    List (List Char × Nat) → List (List Char × Nat)
  | [] => [x]
  | y :: ys =>
    if y.1.length < x.1.length then y :: insertByLen x ys else x :: y :: ys

/-- Stable sort by ascending label length, modelling Python's stable
`result.sort(key=lambda x: len(x[0]))`. -/
def sortByLen : List (List Char × Nat) → List (List Char × Nat)
  | [] => []
  | x :: xs => insertByLen x (sortByLen xs)

/-- Model of `Browser.get_buttons_xpath`: enumerate all buttons, keep the
displayed and enabled ones with their normalized label and 1-based index
(the XPath `(//button | //input[@type='submit'])[i+1]`), sorted by
ascending label length. -/
def get_buttons_xpath (page : List PageButton) : List (List Char × Nat) :=
  sortByLen (page.enum.filterMap (fun p =>
    if p.2.displayed && p.2.enabled then some (norm_label p.2, p.1 + 1)
    else none))

/-- One click attempt of `find_and_click_btn` on the button at a 1-based
index: the bounded clickability wait (timeout caught, `False`), then
`click_element` (whose errors the enclosing handler would also turn into
`False`). -/
def btnAttempt (page : List PageButton) (xp : Nat) : Bool :=
  match page.get? (xp - 1) with
  | none => false
  | some b =>
    if b.waitClickable then
      match click_element b.clickEv with
      | .ok r => r
      | .error _ => false
    else false

/-- The matching loop of `find_and_click_btn`: the first button whose
normalized label contains the lowercased kind is attempted, and its result
(true or false) is returned; no further button is tried. -/
def findBtnLoop (page : List PageButton) (btn_type : List Char) :
    List (List Char × Nat) → Bool
  | [] => false
  | (text, xp) :: rest =>
    if containsSub (toLowerStr btn_type) (toLowerStr text) then
      btnAttempt page xp
    else findBtnLoop page btn_type rest

/-- Model of `Browser.find_and_click_btn`. -/
def find_and_click_btn (page : List PageButton) (btn_type : List Char) :
    Bool :=
  let buttons := get_buttons_xpath page
  if buttons.isEmpty then false
  else findBtnLoop page btn_type buttons

/-- The literal candidate list of `find_and_click_submission` (with its
duplicated entries). -/
def possible_submissions : List (List Char) :=
  ["login", "submit", "register", "calculate", "login", "submit",
   "register", "calculate", "save", "send", "continue", "apply", "ok",
   "confirm", "next", "proceed", "accept", "agree", "yes", "no", "cancel",
   "close", "done", "finish", "start", "calculate"].map String.toList

/-- Model of `Browser.find_and_click_submission`: try each candidate label
in order, returning on the first success. -/
def find_and_click_submission (page : List PageButton) : Bool :=
  possible_submissions.any (fun s => find_and_click_btn page s)

/-- The claim's vocabulary for C9 (each label once, in first-occurrence
order). -/
def claimVocab : List (List Char) :=
  ["login", "submit", "register", "calculate", "save", "send", "continue",
   "apply", "ok", "confirm", "next", "proceed", "accept", "agree", "yes",
   "no", "cancel", "close", "done", "finish", "start"].map String.toList

/-- C6 (counterexample): the claim fails as stated — a genuinely unexpected
driver error during `click_element` does NOT propagate to the caller; the
final `except Exception` handler swallows it and the call returns `False`. -/
theorem c6_click_error_counterexample :
    click_element (ClickEvent.otherError "boom".toList) = Except.ok false ∧
      ¬ click_element (ClickEvent.otherError "boom".toList)
          = Except.error "boom".toList := by
  refine ⟨rfl, ?_⟩
  intro h
  exact Except.noConfusion h

/-- C6 (amended claim theorem): `click_element` returns `false` when the
target is not displayed, not enabled, when the clickability wait times out,
or when the click is intercepted — and also on any other unexpected driver
error, which is caught by the broad `except Exception` handler rather than
propagated; only a successful click returns `true`, and no outcome raises.
`find_and_click_btn` likewise returns `false` for a matching button whose
click raises an unexpected error or whose wait times out. -/
theorem c6_click_error_amended :
    (∀ ev, click_element ev = Except.ok (isClickOk ev)) ∧
      find_and_click_btn
        [⟨"Login".toList, [], true, true, true,
          ClickEvent.otherError "boom".toList⟩] "login".toList = false ∧
      find_and_click_btn
        [⟨"Login".toList, [], true, true, false, ClickEvent.clickOk⟩]
        "login".toList = false := by
  refine ⟨?_, by decide, by decide⟩
  intro ev
  cases ev <;> rfl

theorem mem_insertByLen {x y : List Char × Nat} {l : List (List Char × Nat)} :
    y ∈ insertByLen x l ↔ y = x ∨ y ∈ l := by
  induction l with
  | nil => simp [insertByLen]
  | cons z zs ih =>
    simp only [insertByLen]
    split
    · simp only [List.mem_cons, ih]
      tauto
    · simp only [List.mem_cons]
      try tauto

theorem mem_sortByLen {x : List Char × Nat} {l : List (List Char × Nat)} :
    x ∈ sortByLen l ↔ x ∈ l := by
  induction l with
  | nil => simp [sortByLen]
  | cons z zs ih =>
    simp only [sortByLen, mem_insertByLen, List.mem_cons, ih]

theorem space_not_mem_label (page : List PageButton) :
    ∀ e ∈ get_buttons_xpath page, ' ' ∉ e.1 := by
  intro e he
  rw [get_buttons_xpath, mem_sortByLen] at he
  obtain ⟨p, _, hp⟩ := List.mem_filterMap.mp he
  split at hp
  · have : e.1 = norm_label p.2 := by
      have := Option.some.inj hp
      rw [← this]
    rw [this, norm_label]
    intro hm
    have := (List.mem_filter.mp hm).2
    simp at this
  · exact absurd hp (by simp)

theorem mem_of_leadsWith {m l : List Char} (h : leadsWith m l = true)
    {c : Char} (hc : c ∈ m) : c ∈ l := by
  induction m generalizing l with
  | nil => simp at hc
  | cons p ps ih =>
    cases l with
    | nil => simp [leadsWith] at h
    | cons x xs =>
      simp only [leadsWith, Bool.and_eq_true, decide_eq_true_eq] at h
      obtain ⟨hpx, h2⟩ := h
      rcases List.mem_cons.mp hc with rfl | hc'
      · rw [hpx]
        exact List.mem_cons_self _ _
      · exact List.mem_cons_of_mem _ (ih h2 hc')

theorem mem_of_containsSub {m l : List Char} (h : containsSub m l = true)
    {c : Char} (hc : c ∈ m) : c ∈ l := by
  induction l with
  | nil =>
    simp only [containsSub] at h
    rw [List.isEmpty_iff] at h
    subst h
    simp at hc
  | cons x xs ih =>
    simp only [containsSub, Bool.or_eq_true] at h
    rcases h with h | h
    · exact mem_of_leadsWith h hc
    · exact List.mem_cons_of_mem _ (ih h)

theorem toNat_ofNat_of_valid {n : Nat} (h : n.isValidChar) :
    (Char.ofNat n).toNat = n := by
  rw [Char.ofNat, dif_pos h]
  rfl

theorem toLower_space_of_eq {c : Char} (h : c.toLower = ' ') : c = ' ' := by
  by_cases hc : c.toNat ≥ 65 ∧ c.toNat ≤ 90
  · exfalso
    have h1 : c.toLower = Char.ofNat (c.toNat + 32) := by
      simp only [Char.toLower]
      rw [if_pos hc]
    have hv : (c.toNat + 32).isValidChar := Or.inl (by omega)
    have h2 : c.toLower.toNat = c.toNat + 32 := by
      rw [h1, toNat_ofNat_of_valid hv]
    rw [h] at h2
    have h3 : (' ' : Char).toNat = 32 := rfl
    omega
  · have h1 : c.toLower = c := by
      simp only [Char.toLower]
      rw [if_neg hc]
    rw [← h1, h]

theorem no_space_in_lower_label {label : List Char} (h : ' ' ∉ label) :
    ' ' ∉ toLowerStr label := by
  intro hm
  obtain ⟨c, hc, hlow⟩ := List.mem_map.mp hm
  exact h (toLower_space_of_eq hlow ▸ hc)

theorem space_mem_toLowerStr {kind : List Char} (h : ' ' ∈ kind) :
    ' ' ∈ toLowerStr kind := by
  have h0 : Char.toLower ' ' = ' ' := rfl
  exact h0 ▸ List.mem_map_of_mem Char.toLower h

/-- C10 (claim theorem): `get_buttons_xpath` stores labels lowercased with
every space removed and `find_and_click_btn` matches by substring on those
labels, so a kind string containing a space can never match any button. -/
theorem c10_space_kind_never_matches (page : List PageButton)
    (kind : List Char) (h : ' ' ∈ kind) :
    find_and_click_btn page kind = false := by
  have hlabels := space_not_mem_label page
  simp only [find_and_click_btn]
  split
  · rfl
  · have hloop : ∀ bs : List (List Char × Nat), (∀ e ∈ bs, ' ' ∉ e.1) →
        findBtnLoop page kind bs = false := by
      intro bs
      induction bs with
      | nil => intro _; rfl
      | cons e rest ih =>
        intro hb
        obtain ⟨text, xp⟩ := e
        simp only [findBtnLoop]
        have hn : containsSub (toLowerStr kind) (toLowerStr text) = false := by
          apply Bool.eq_false_iff.mpr
          intro hx
          exact no_space_in_lower_label (hb _ (List.mem_cons_self _ _))
            (mem_of_containsSub hx (space_mem_toLowerStr h))
        rw [if_neg (by rw [hn]; exact Bool.false_ne_true)]
        exact ih (fun e' he' => hb e' (List.mem_cons_of_mem _ he'))
    exact hloop _ hlabels

/-- C10 witness: a `"sign up"` kind cannot click a button whose visible
label is `"Sign Up"` (normalized to `"signup"`). -/
theorem c10_space_kind_never_matches_witness :
    ' ' ∈ "sign up".toList ∧
      find_and_click_btn
        [⟨"Sign Up".toList, [], true, true, true, ClickEvent.clickOk⟩]
        "sign up".toList = false :=
  ⟨by decide, c10_space_kind_never_matches _ _ (by decide)⟩

/-- C9 (claim theorem): `find_and_click_submission` is the first-success
scan of the claim's label vocabulary (its literal candidate list repeats
some labels, but the repeats cannot change the result); a page whose single
button is labeled `"Register Now"` is matched via the substring
`"register"` and yields `true`, and a page with no recognized label yields
`false` without raising. -/
theorem c9_find_and_click_submission_vocab :
    (∀ page, find_and_click_submission page
        = claimVocab.any (fun s => find_and_click_btn page s)) ∧
      find_and_click_submission
        [⟨"Register Now".toList, [], true, true, true, ClickEvent.clickOk⟩]
        = true ∧
      find_and_click_submission
        [⟨"FooBar".toList, [], true, true, true, ClickEvent.clickOk⟩]
        = false := by
  refine ⟨?_, by decide, by decide⟩
  intro page
  have hsub1 : ∀ s ∈ possible_submissions, s ∈ claimVocab := by decide
  have hsub2 : ∀ s ∈ claimVocab, s ∈ possible_submissions := by decide
  rw [find_and_click_submission]
  cases h2 : claimVocab.any (fun s => find_and_click_btn page s) with
  | true =>
    obtain ⟨s, hs, hf⟩ := List.any_eq_true.mp h2
    exact List.any_eq_true.mpr ⟨s, hsub2 s hs, hf⟩
  | false =>
    rw [List.any_eq_false]
    intro s hs
    exact (List.any_eq_false.mp h2) s (hsub1 s hs)

/-! ### The regex `(.*?)\]\((.*?)\)` with backtracking.  This continuation
is shared by the `re.match(r'\[(.*?)\]\((.*?)\)', ...)` of
`fill_form_inputs` and the `re.sub(r'!\[(.*?)\]\(.*?\)', ...)` of
`get_text`.  `.` does not match a newline; the first group is non-greedy up
to the literal `](`, backtracking to a later `](` when no `)` follows, and
the second group is non-greedy up to the literal `)`. -/

/-- Match `(.*?)\)`: the shortest newline-free group before a `)`, with the
remainder after the `)`. -/
def findClose : List Char → Option (List Char × List Char)
  | [] => none
  | c :: rest =>
    if c = ')' then some ([], rest)
    else if c = '\n' then none
    else (findClose rest).map (fun p => (c :: p.1, p.2))

/-- Match `(.*?)\]\((.*?)\)`: both groups and the remainder after the
closing `)`, with regex backtracking order (shortest first group first). -/
def findAltUrl : List Char → Option (List Char × List Char × List Char)
  | [] => none
  | c :: rest =>
    if c = ']' ∧ rest.head? = some '(' then
      match findClose rest.tail with
      | some (url, t) => some ([], url, t)
      | none => (findAltUrl rest).map (fun p => (c :: p.1, p.2.1, p.2.2))
    else if c = '\n' then none
    else (findAltUrl rest).map (fun p => (c :: p.1, p.2.1, p.2.2))

/-! ### `Browser.fill_form_inputs` (src/sources/browser.py lines 380-415)
and `Browser.find_input_xpath_by_name` (lines 374-378).  The live form is
modelled as a list of field descriptors (as produced by the injected
`find_inputs.js` script: label text, xpath, type attribute) carrying the
mutable element state (checked flag, text value).  A click on a
checkbox/radio toggles its checked state; `clear()` empties the value and
`send_keys(v)` appends, so clear-then-send sets the value to exactly `v`. -/

/-- One form field: descriptor data (`text`, `xpath`, `type`) plus the
element state (`checked`, `value`). -/
structure FormField where
  text : List Char
  xpath : Nat
  ftype : List Char
  checked : Bool
  value : List Char
  deriving DecidableEq

/-- Model of `re.match(r'\[(.*?)\]\((.*?)\)', s)`: anchored at the start,
trailing text ignored. -/
def parse_cmd (s : List Char) : Option (List Char × List Char) :=
  match s with
  | '[' :: rest => (findAltUrl rest).map (fun p => (p.1, p.2.1))
  | _ => none

/-- Model of `Browser.find_input_xpath_by_name`: the first field whose
label text contains the name as a substring. -/
def find_input_xpath_by_name (inputs : List FormField) (name : List Char) :
    Option Nat :=
  match inputs with
  | [] => none
  | f :: rest =>
    if containsSub name f.text then some f.xpath
    else find_input_xpath_by_name rest name

/-- Model of `driver.find_element(By.XPATH, xpath)`: the first field at the
given xpath. -/
def findByXpath (fields : List FormField) (xp : Nat) : Option FormField :=
  fields.find? (fun f => decide (f.xpath = xp))

/-- Mutate the first field at the given xpath (the element
`driver.find_element` returns). -/
def update_first : List FormField → Nat → (FormField → FormField) →
    List FormField
  | [], _, _ => []
  | f :: rest, xp, g =>
    if f.xpath = xp then g f :: rest else f :: update_first rest xp g

/-- The driver actions issued by `fill_form_inputs`. -/
inductive FormEffect where
  | click (xp : Nat)
  | clear (xp : Nat)
  | sendKeys (xp : Nat) (v : List Char)
  deriving DecidableEq

/-- Whether a form effect is an `element.click()`. -/
def isClickEffect : FormEffect → Bool
  | .click _ => true
  | _ => false

/-- The boolean input types of `fill_form_inputs`. -/
def boolTypes : List (List Char) :=
  ["checkbox".toList, "radio".toList]

/-- `(element.get_attribute("type") or "text").lower()`. -/
def eff_type (f : FormField) : List Char :=
  toLowerStr (if f.ftype.isEmpty then "text".toList else f.ftype)

/-- One iteration of the `fill_form_inputs` loop: parse the
`[name](value)` command, resolve the name against the snapshot taken by
`find_all_inputs()` at entry, look the element up in the live page, then
either toggle a boolean control (only when its checked state differs from
the requested sentinel) or clear-and-type into a text control.  Returns the
updated live page and the driver actions issued. -/
def apply_cmd (snapshot live : List FormField) (cmd : List Char) :
    List FormField × List FormEffect :=
  match parse_cmd cmd with
  | none => (live, [])
  | some nv =>
    let name := stripL nv.1
    let value := stripL nv.2
    match find_input_xpath_by_name snapshot name with
    | none => (live, [])
    | some xp =>
      match findByXpath live xp with
      | none => (live, [])
      | some f =>
        if boolTypes.contains (eff_type f) then
          let should := decide (toLowerStr value = "checked".toList)
          if f.checked != should then
            (update_first live xp (fun x => { x with checked := !x.checked }),
             [FormEffect.click xp])
          else (live, [])
        else
          (update_first live xp (fun x => { x with value := value }),
           [FormEffect.clear xp, FormEffect.sendKeys xp value])

/-- The command loop of `fill_form_inputs` (snapshot fixed, live page
threaded through). -/
def fill_loop (snapshot : List FormField) (live : List FormField) :
    List (List Char) → List FormField × List FormEffect
  | [] => (live, [])
  | cmd :: rest =>
    let r := apply_cmd snapshot live cmd
    let r2 := fill_loop snapshot r.1 rest
    (r2.1, r.2 ++ r2.2)

/-- Model of `Browser.fill_form_inputs`: `inputs = self.find_all_inputs()`
is snapshotted once, then each command is applied to the live page. -/
def fill_form_inputs (fields : List FormField) (cmds : List (List Char)) :
    List FormField × List FormEffect :=
  fill_loop fields fields cmds

/-! ### Unfolding and stability lemmas for `apply_cmd` -/

theorem apply_cmd_parse_none {c : List Char} (S L : List FormField)
    (h : parse_cmd c = none) : apply_cmd S L c = (L, []) := by
  simp only [apply_cmd, h]

theorem apply_cmd_resolve_none {c : List Char} {nv : List Char × List Char}
    (S L : List FormField) (hp : parse_cmd c = some nv)
    (h : find_input_xpath_by_name S (stripL nv.1) = none) :
    apply_cmd S L c = (L, []) := by
  simp only [apply_cmd, hp, h]

theorem apply_cmd_elem_none {c : List Char} {nv : List Char × List Char}
    {xp : Nat} (S L : List FormField) (hp : parse_cmd c = some nv)
    (hfi : find_input_xpath_by_name S (stripL nv.1) = some xp)
    (hfx : findByXpath L xp = none) : apply_cmd S L c = (L, []) := by
  simp only [apply_cmd, hp, hfi, hfx]

theorem apply_cmd_bool_click {c : List Char} {nv : List Char × List Char}
    {xp : Nat} {f : FormField} (S L : List FormField)
    (hp : parse_cmd c = some nv)
    (hfi : find_input_xpath_by_name S (stripL nv.1) = some xp)
    (hfx : findByXpath L xp = some f)
    (hbool : boolTypes.contains (eff_type f) = true)
    (hch : (f.checked
      != decide (toLowerStr (stripL nv.2) = "checked".toList)) = true) :
    apply_cmd S L c =
      (update_first L xp (fun x => { x with checked := !x.checked }),
       [FormEffect.click xp]) := by
  simp only [apply_cmd, hp, hfi, hfx]
  rw [if_pos hbool, if_pos hch]

theorem apply_cmd_bool_noop {c : List Char} {nv : List Char × List Char}
    {xp : Nat} {f : FormField} (S L : List FormField)
    (hp : parse_cmd c = some nv)
    (hfi : find_input_xpath_by_name S (stripL nv.1) = some xp)
    (hfx : findByXpath L xp = some f)
    (hbool : boolTypes.contains (eff_type f) = true)
    (hch : ¬(f.checked
      != decide (toLowerStr (stripL nv.2) = "checked".toList)) = true) :
    apply_cmd S L c = (L, []) := by
  simp only [apply_cmd, hp, hfi, hfx]
  rw [if_pos hbool, if_neg hch]

theorem apply_cmd_text {c : List Char} {nv : List Char × List Char}
    {xp : Nat} {f : FormField} (S L : List FormField)
    (hp : parse_cmd c = some nv)
    (hfi : find_input_xpath_by_name S (stripL nv.1) = some xp)
    (hfx : findByXpath L xp = some f)
    (hbool : ¬boolTypes.contains (eff_type f) = true) :
    apply_cmd S L c =
      (update_first L xp (fun x => { x with value := stripL nv.2 }),
       [FormEffect.clear xp, FormEffect.sendKeys xp (stripL nv.2)]) := by
  simp only [apply_cmd, hp, hfi, hfx]
  rw [if_neg hbool]

theorem find_input_update (g : FormField → FormField) {F : List FormField}
    {xp : Nat} (name : List Char)
    (hg : ∀ x, (g x).text = x.text ∧ (g x).xpath = x.xpath) :
    find_input_xpath_by_name (update_first F xp g) name
      = find_input_xpath_by_name F name := by
  induction F with
  | nil => rfl
  | cons f rest ih =>
    simp only [update_first]
    split
    · simp only [find_input_xpath_by_name, (hg f).1, (hg f).2]
    · simp only [find_input_xpath_by_name]
      split
      · rfl
      · exact ih

theorem findByXpath_update (g : FormField → FormField) {F : List FormField}
    {xp : Nat} (hg : ∀ x, (g x).xpath = x.xpath) :
    findByXpath (update_first F xp g) xp = (findByXpath F xp).map g := by
  induction F with
  | nil => rfl
  | cons f rest ih =>
    simp only [update_first]
    by_cases hf : f.xpath = xp
    · rw [if_pos hf]
      simp only [findByXpath]
      rw [List.find?_cons_of_pos _ (by simp [hg f, hf]),
        List.find?_cons_of_pos _ (by simp [hf])]
      rfl
    · rw [if_neg hf]
      simp only [findByXpath]
      rw [List.find?_cons_of_neg _ (by simp [hf]),
        List.find?_cons_of_neg _ (by simp [hf])]
      exact ih

theorem update_first_comp (g h : FormField → FormField) {F : List FormField}
    {xp : Nat} (hg : ∀ x, (g x).xpath = x.xpath) :
    update_first (update_first F xp g) xp h
      = update_first F xp (fun x => h (g x)) := by
  induction F with
  | nil => rfl
  | cons f rest ih =>
    by_cases hf : f.xpath = xp
    · simp only [update_first, if_pos hf]
      show (if (g f).xpath = xp then h (g f) :: rest
          else g f :: update_first rest xp h) = h (g f) :: rest
      rw [if_pos (show (g f).xpath = xp from by rw [hg f]; exact hf)]
    · simp only [update_first, if_neg hf]
      rw [ih]

theorem update_first_congr {F : List FormField} {xp : Nat}
    {g h : FormField → FormField} (hgh : ∀ x, g x = h x) :
    update_first F xp g = update_first F xp h := by
  induction F with
  | nil => rfl
  | cons f rest ih =>
    simp only [update_first]
    split
    · rw [hgh f]
    · rw [ih]

/-! ### C8 sample pages -/

/-- A one-field page with a text input labelled `email`. -/
def emailPage : List FormField :=
  [⟨"email".toList, 1, "text".toList, false, "old".toList⟩]

/-- The form-fill command of the spec's round-trip example. -/
def emailCmd : List Char := "[email](a@b.com)".toList

/-- The email page after filling. -/
def emailFilled : List FormField :=
  [⟨"email".toList, 1, "text".toList, false, "a@b.com".toList⟩]

/-- A one-field page with a checkbox labelled `agree`. -/
def agreeBox (b : Bool) : List FormField :=
  [⟨"agree".toList, 2, "checkbox".toList, b, []⟩]

/-- The checkbox-sentinel command. -/
def agreeCmd : List Char := "[agree](checked)".toList

/-- C8 (claim theorem): `fill_form_inputs` is idempotent per command:
re-applying any command leaves the page state unchanged and issues no
click (booleans are only clicked when the checked state differs from the
requested sentinel); a text control is cleared before typing, so filling
`[email](a@b.com)` makes the field's value exactly `a@b.com`, refilling is
a state no-op, and an already-checked checkbox receives no click at all. -/
theorem c8_fill_form_idempotent :
    (∀ (F : List FormField) (c : List Char),
        (apply_cmd (apply_cmd F F c).1 (apply_cmd F F c).1 c).1
            = (apply_cmd F F c).1 ∧
          ((apply_cmd (apply_cmd F F c).1 (apply_cmd F F c).1 c).2.any
            isClickEffect) = false) ∧
      fill_form_inputs emailPage [emailCmd]
          = (emailFilled,
             [FormEffect.clear 1, FormEffect.sendKeys 1 "a@b.com".toList]) ∧
      fill_form_inputs emailFilled [emailCmd]
          = (emailFilled,
             [FormEffect.clear 1, FormEffect.sendKeys 1 "a@b.com".toList]) ∧
      apply_cmd (agreeBox false) (agreeBox false) agreeCmd
          = (agreeBox true, [FormEffect.click 2]) ∧
      apply_cmd (agreeBox true) (agreeBox true) agreeCmd
          = (agreeBox true, []) := by
  refine ⟨?_, by decide, by decide, by decide, by decide⟩
  intro F c
  cases hp : parse_cmd c with
  | none =>
    rw [apply_cmd_parse_none F F hp, apply_cmd_parse_none F F hp]
    exact ⟨rfl, rfl⟩
  | some nv =>
    cases hfi : find_input_xpath_by_name F (stripL nv.1) with
    | none =>
      rw [apply_cmd_resolve_none F F hp hfi, apply_cmd_resolve_none F F hp hfi]
      exact ⟨rfl, rfl⟩
    | some xp =>
      cases hfx : findByXpath F xp with
      | none =>
        rw [apply_cmd_elem_none F F hp hfi hfx,
          apply_cmd_elem_none F F hp hfi hfx]
        exact ⟨rfl, rfl⟩
      | some f =>
        by_cases hbool : boolTypes.contains (eff_type f) = true
        · by_cases hch : (f.checked
              != decide (toLowerStr (stripL nv.2) = "checked".toList)) = true
          · rw [apply_cmd_bool_click F F hp hfi hfx hbool hch]
            have hg : ∀ x : FormField,
                ({ x with checked := !x.checked } : FormField).text = x.text ∧
                  ({ x with checked := !x.checked } : FormField).xpath
                    = x.xpath :=
              fun x => ⟨rfl, rfl⟩
            have hfi2 : find_input_xpath_by_name
                (update_first F xp (fun x => { x with checked := !x.checked }))
                (stripL nv.1) = some xp := by
              rw [find_input_update
                (fun x => { x with checked := !x.checked }) (stripL nv.1) hg,
                hfi]
            have hfx2 : findByXpath
                (update_first F xp (fun x => { x with checked := !x.checked }))
                xp = some { f with checked := !f.checked } := by
              rw [findByXpath_update
                (fun x => { x with checked := !x.checked }) (fun x => rfl),
                hfx]
              rfl
            have hbool2 : boolTypes.contains
                (eff_type { f with checked := !f.checked }) = true := hbool
            have hch2 : ¬(({ f with checked := !f.checked } : FormField).checked
                != decide (toLowerStr (stripL nv.2) = "checked".toList))
                  = true := by
              have hcc : ({ f with checked := !f.checked } : FormField).checked
                  = !f.checked := rfl
              rw [hcc]
              revert hch
              cases f.checked <;>
                cases decide (toLowerStr (stripL nv.2) = "checked".toList) <;>
                  decide
            rw [apply_cmd_bool_noop _ _ hp hfi2 hfx2 hbool2 hch2]
            exact ⟨rfl, rfl⟩
          · rw [apply_cmd_bool_noop F F hp hfi hfx hbool hch,
              apply_cmd_bool_noop F F hp hfi hfx hbool hch]
            exact ⟨rfl, rfl⟩
        · rw [apply_cmd_text F F hp hfi hfx hbool]
          have hg : ∀ x : FormField,
              ({ x with value := stripL nv.2 } : FormField).text = x.text ∧
                ({ x with value := stripL nv.2 } : FormField).xpath
                  = x.xpath :=
            fun x => ⟨rfl, rfl⟩
          have hfi2 : find_input_xpath_by_name
              (update_first F xp (fun x => { x with value := stripL nv.2 }))
              (stripL nv.1) = some xp := by
            rw [find_input_update
              (fun x => { x with value := stripL nv.2 }) (stripL nv.1) hg,
              hfi]
          have hfx2 : findByXpath
              (update_first F xp (fun x => { x with value := stripL nv.2 }))
              xp = some { f with value := stripL nv.2 } := by
            rw [findByXpath_update
              (fun x => { x with value := stripL nv.2 }) (fun x => rfl),
              hfx]
            rfl
          have hbool2 : ¬boolTypes.contains
              (eff_type { f with value := stripL nv.2 }) = true := hbool
          rw [apply_cmd_text _ _ hp hfi2 hfx2 hbool2]
          constructor
          · rw [update_first_comp (fun x => { x with value := stripL nv.2 })
              (fun x => { x with value := stripL nv.2 }) (fun x => rfl)]
          · rfl

/-! ### `Browser.get_text` (src/sources/browser.py lines 161-187).
BeautifulSoup tag stripping and the markdownify conversion are external
collaborators; `get_text` is modelled as a function of the Markdown text
they produce (an arbitrary string), or of `none` when extraction fails and
the method returns `None`.  `splitlines` is modelled as splitting on
newlines; a trailing newline's empty final line is filtered out by the
strip-and-keep test exactly as in Python. -/

/-- Accumulator loop of Python `s.split()` (whitespace split, no empty
parts). -/
def splitWsGo (cur : List Char) : List Char → List (List Char)
  | [] => if cur.isEmpty then [] else [cur.reverse]
  | c :: rest =>
    if isSpaceCh c then
      if cur.isEmpty then splitWsGo [] rest
      else cur.reverse :: splitWsGo [] rest
    else splitWsGo (c :: cur) rest

/-- Model of Python `s.split()`. -/
def splitWs (l : List Char) : List (List Char) :=
  splitWsGo [] l

/-- One line of the `get_text` filter: keep a stripped non-empty line that
`is_sentence` accepts, with internal whitespace collapsed
(`' '.join(stripped.split())`). -/
def keep_line (line : List Char) : Option (List Char) :=
  let stripped := stripL line
  if !stripped.isEmpty && is_sentence stripped then
    some (joinCh ' ' (splitWs stripped))
  else none

/-- The substitution text `[IMAGE: \1]` of `get_text`'s `re.sub`. -/
def imgRepl (alt : List Char) : List Char :=
  "[IMAGE: ".toList ++ alt ++ "]".toList

/-- A match of `!\[(.*?)\]\(.*?\)` anchored at the current position: the
alt-text group and the remainder after the match. -/
def tryImage (s : List Char) : Option (List Char × List Char) :=
  if s.head? = some '!' ∧ s.tail.head? = some '[' then
    (findAltUrl s.tail.tail).map (fun p => (p.1, p.2.2))
  else none

/-- Fuelled left-to-right scan of `re.sub(r'!\[(.*?)\]\(.*?\)', ...)`: at
each position, replace the leftmost match and continue after it.  The fuel
(always instantiated with the string length, which suffices) makes the
recursion structural. -/
def imageSubF : Nat → List Char → List Char
  | 0, s => s
  | _ + 1, [] => []
  | fuel + 1, c :: rest =>
    match tryImage (c :: rest) with
    | some p => imgRepl p.1 ++ imageSubF fuel p.2
    | none => c :: imageSubF fuel rest

/-- Model of `re.sub(r'!\[(.*?)\]\(.*?\)', r'[IMAGE: \1]', s)`. -/
def imageSub (s : List Char) : List Char :=
  imageSubF s.length s

/-- The result of `get_text` before the final `[:8192]` truncation: the
kept lines joined with blank-line separators inside the page envelope,
with image Markdown replaced by `[IMAGE: alt]` tokens. -/
def page_markdown_pre (markdown_text : List Char) : List Char :=
  let lines := (splitCh '\n' markdown_text).filterMap keep_line
  let result := "[Start of page]\n\n".toList ++
    joinSepL "\n\n".toList lines ++ "\n\n[End of page]".toList
  imageSub result

/-- Model of `Browser.get_text` as a function of the converted Markdown
text (truncation to the 8192-character budget). -/
def get_text_core (md : List Char) : List Char :=
  (page_markdown_pre md).take 8192

/-- Model of `Browser.get_text` including the `None`-on-failure contract. -/
def get_text (md : Option (List Char)) : Option (List Char) :=
  md.map get_text_core

/-! ### Structure of the regex matcher -/

theorem findClose_eq {s g t : List Char} (h : findClose s = some (g, t)) :
    s = g ++ ')' :: t ∧ '\n' ∉ g := by
  induction s generalizing g t with
  | nil => simp [findClose] at h
  | cons c rest ih =>
    simp only [findClose] at h
    split_ifs at h with h1 h2
    · simp only [Option.some_inj, Prod.mk.injEq] at h
      obtain ⟨hg, ht⟩ := h
      subst hg
      subst ht
      subst h1
      exact ⟨rfl, by simp⟩
    · cases hfc : findClose rest with
      | none =>
        rw [hfc] at h
        simp at h
      | some p =>
        obtain ⟨g', t'⟩ := p
        rw [hfc] at h
        have h' : (some (c :: g', t') : Option (List Char × List Char))
            = some (g, t) := h
        simp only [Option.some_inj, Prod.mk.injEq] at h'
        obtain ⟨hg, ht⟩ := h'
        subst hg
        subst ht
        obtain ⟨hrest, hnl⟩ := ih hfc
        refine ⟨by rw [hrest]; rfl, ?_⟩
        intro hm
        rcases List.mem_cons.mp hm with h' | h'
        · exact h2 h'.symm
        · exact hnl h'

theorem findAltUrl_eq {s a u t : List Char}
    (h : findAltUrl s = some (a, u, t)) :
    s = a ++ ']' :: '(' :: u ++ ')' :: t ∧ '\n' ∉ a ∧ '\n' ∉ u := by
  induction s generalizing a u t with
  | nil => simp [findAltUrl] at h
  | cons c rest ih =>
    simp only [findAltUrl] at h
    split_ifs at h with h1 h2
    · obtain ⟨hc, hh⟩ := h1
      subst hc
      cases rest with
      | nil => simp at hh
      | cons r rs =>
        simp only [List.head?_cons, Option.some_inj] at hh
        subst hh
        simp only [List.tail_cons] at h
        cases hfc : findClose rs with
        | some p =>
          obtain ⟨url, t'⟩ := p
          rw [hfc] at h
          simp only [Option.some_inj, Prod.mk.injEq] at h
          obtain ⟨ha, hu, ht⟩ := h
          subst ha
          subst hu
          subst ht
          obtain ⟨hrs, hnl⟩ := findClose_eq hfc
          exact ⟨by rw [hrs]; rfl, by simp, hnl⟩
        | none =>
          rw [hfc] at h
          cases hfa : findAltUrl ('(' :: rs) with
          | none =>
            rw [hfa] at h
            simp at h
          | some p =>
            obtain ⟨a', u', t''⟩ := p
            rw [hfa] at h
            have h' : (some (']' :: a', u', t'')
                : Option (List Char × List Char × List Char))
                = some (a, u, t) := h
            simp only [Option.some_inj, Prod.mk.injEq] at h'
            obtain ⟨ha, hu, ht⟩ := h'
            subst ha
            subst hu
            subst ht
            obtain ⟨hrest, hna, hnu⟩ := ih hfa
            refine ⟨?_, ?_, hnu⟩
            · rw [List.cons_append]
              exact congrArg (']' :: ·) hrest
            · intro hm
              rcases List.mem_cons.mp hm with h' | h'
              · exact absurd h' (by decide)
              · exact hna h'
    · cases hfa : findAltUrl rest with
      | none =>
        rw [hfa] at h
        simp at h
      | some p =>
        obtain ⟨a', u', t''⟩ := p
        rw [hfa] at h
        have h' : (some (c :: a', u', t'')
            : Option (List Char × List Char × List Char))
            = some (a, u, t) := h
        simp only [Option.some_inj, Prod.mk.injEq] at h'
        obtain ⟨ha, hu, ht⟩ := h'
        subst ha
        subst hu
        subst ht
        obtain ⟨hrest, hna, hnu⟩ := ih hfa
        refine ⟨by rw [List.cons_append]; exact congrArg (c :: ·) hrest,
          ?_, hnu⟩
        intro hm
        rcases List.mem_cons.mp hm with h' | h'
        · exact h2 h'.symm
        · exact hna h'

theorem tryImage_eq {s alt tail : List Char}
    (h : tryImage s = some (alt, tail)) :
    ∃ u, s = '!' :: '[' :: alt ++ ']' :: '(' :: u ++ ')' :: tail ∧
      '\n' ∉ alt ∧ '\n' ∉ u := by
  simp only [tryImage] at h
  split_ifs at h with hc
  · obtain ⟨h1, h2⟩ := hc
    cases s with
    | nil => simp at h1
    | cons c s1 =>
      simp only [List.head?_cons, Option.some_inj] at h1
      subst h1
      cases s1 with
      | nil => simp at h2
      | cons d s2 =>
        simp only [List.tail_cons, List.head?_cons, Option.some_inj] at h2
        subst h2
        simp only [List.tail_cons] at h
        cases hfa : findAltUrl s2 with
        | none =>
          rw [hfa] at h
          simp at h
        | some p =>
          obtain ⟨a, u, t⟩ := p
          rw [hfa] at h
          have h' : (some (a, t) : Option (List Char × List Char))
              = some (alt, tail) := h
          simp only [Option.some_inj, Prod.mk.injEq] at h'
          obtain ⟨ha, ht⟩ := h'
          subst ha
          subst ht
          obtain ⟨hs2, hna, hnu⟩ := findAltUrl_eq hfa
          exact ⟨u, by rw [hs2]; simp, hna, hnu⟩

theorem tryImage_consumed {s alt tail : List Char}
    (h : tryImage s = some (alt, tail)) :
    ∃ cs, s = cs ++ tail ∧ cs ≠ [] ∧ '\n' ∉ cs := by
  obtain ⟨u, hs, hna, hnu⟩ := tryImage_eq h
  refine ⟨'!' :: '[' :: alt ++ ']' :: '(' :: u ++ [')'], ?_, by simp, ?_⟩
  · rw [hs]
    simp
  · intro hm
    simp only [List.append_assoc, List.cons_append] at hm
    rcases List.mem_cons.mp hm with h1 | hm
    · exact absurd h1 (by decide)
    rcases List.mem_cons.mp hm with h1 | hm
    · exact absurd h1 (by decide)
    rcases List.mem_append.mp hm with h1 | hm
    · exact hna h1
    rcases List.mem_cons.mp hm with h1 | hm
    · exact absurd h1 (by decide)
    rcases List.mem_cons.mp hm with h1 | hm
    · exact absurd h1 (by decide)
    rcases List.mem_append.mp hm with h1 | hm
    · exact hnu h1
    rcases List.mem_cons.mp hm with h1 | hm
    · exact absurd h1 (by decide)
    · simp at hm

theorem tryImage_tail_lt {s alt tail : List Char}
    (h : tryImage s = some (alt, tail)) : tail.length < s.length := by
  obtain ⟨cs, hs, hne, _⟩ := tryImage_consumed h
  rw [hs, List.length_append]
  cases cs with
  | nil => exact absurd rfl hne
  | cons c cs' => simp

theorem tryImage_none_of_head {c : Char} (rest : List Char) (h : c ≠ '!') :
    tryImage (c :: rest) = none := by
  simp only [tryImage]
  rw [if_neg]
  rintro ⟨h1, _⟩
  simp only [List.head?_cons, Option.some_inj] at h1
  exact h h1

theorem imageSubF_succ_some {fuel : Nat} {c : Char} {rest alt tail : List Char}
    (h : tryImage (c :: rest) = some (alt, tail)) :
    imageSubF (fuel + 1) (c :: rest) = imgRepl alt ++ imageSubF fuel tail := by
  simp only [imageSubF]
  rw [h]

theorem imageSubF_succ_none {fuel : Nat} {c : Char} {rest : List Char}
    (h : tryImage (c :: rest) = none) :
    imageSubF (fuel + 1) (c :: rest) = c :: imageSubF fuel rest := by
  simp only [imageSubF]
  rw [h]

theorem imageSubF_fuel {f1 : Nat} : ∀ (f2 : Nat) (s : List Char),
    s.length ≤ f1 → s.length ≤ f2 → imageSubF f1 s = imageSubF f2 s := by
  induction f1 with
  | zero =>
    intro f2 s h1 h2
    have hs : s = [] := List.eq_nil_of_length_eq_zero (Nat.le_zero.mp h1)
    subst hs
    cases f2 <;> rfl
  | succ f1' ih =>
    intro f2 s h1 h2
    cases s with
    | nil => cases f2 <;> rfl
    | cons c rest =>
      cases f2 with
      | zero => simp at h2
      | succ f2' =>
        cases ht : tryImage (c :: rest) with
        | some p =>
          obtain ⟨alt, tail⟩ := p
          have hlt := tryImage_tail_lt ht
          simp only [List.length_cons] at hlt h1 h2
          rw [imageSubF_succ_some ht, imageSubF_succ_some ht,
            ih f2' tail (by omega) (by omega)]
        | none =>
          simp only [List.length_cons] at h1 h2
          rw [imageSubF_succ_none ht, imageSubF_succ_none ht,
            ih f2' rest (by omega) (by omega)]

theorem imageSub_cons_some {c : Char} {rest alt tail : List Char}
    (h : tryImage (c :: rest) = some (alt, tail)) :
    imageSub (c :: rest) = imgRepl alt ++ imageSub tail := by
  show imageSubF (rest.length + 1) (c :: rest) = _
  rw [imageSubF_succ_some h]
  have hlt := tryImage_tail_lt h
  simp only [List.length_cons] at hlt
  exact congrArg (imgRepl alt ++ ·)
    (imageSubF_fuel tail.length tail (by omega) le_rfl)

theorem imageSub_cons_none {c : Char} {rest : List Char}
    (h : tryImage (c :: rest) = none) :
    imageSub (c :: rest) = c :: imageSub rest := by
  show imageSubF (rest.length + 1) (c :: rest)
    = c :: imageSubF rest.length rest
  rw [imageSubF_succ_none h]

theorem imageSub_append_no_bang {a : List Char} (b : List Char)
    (h : '!' ∉ a) : imageSub (a ++ b) = a ++ imageSub b := by
  induction a with
  | nil => simp
  | cons c a' ih =>
    show imageSub (c :: (a' ++ b)) = c :: (a' ++ imageSub b)
    rw [imageSub_cons_none (tryImage_none_of_head _
      (fun hc => h (hc ▸ List.mem_cons_self _ _)))]
    rw [ih (fun hm => h (List.mem_cons_of_mem _ hm))]

theorem imageSub_of_no_bang {a : List Char} (h : '!' ∉ a) :
    imageSub a = a := by
  have h0 := imageSub_append_no_bang [] h
  rw [List.append_nil, show imageSub [] = [] from rfl, List.append_nil] at h0
  exact h0

/-- If a string ends with a newline followed by a bang-free, newline-free
segment, the image substitution preserves that ending (no match crosses a
newline, and no match can start inside the final segment). -/
theorem imageSub_keeps_nl_suffix {m : List Char} (hb : '!' ∉ m) :
    ∀ (n : Nat) (s a : List Char), s.length = n →
    s = a ++ '\n' :: m → ∃ pre, imageSub s = pre ++ '\n' :: m := by
  intro n
  induction n using Nat.strong_induction_on with
  | _ n ih =>
    intro s a hlen hs
    cases s with
    | nil => simp at hs
    | cons c rest =>
      cases ht : tryImage (c :: rest) with
      | none =>
        cases a with
        | nil =>
          simp only [List.nil_append] at hs
          obtain ⟨hc, hrest⟩ : c = '\n' ∧ rest = m := by
            injection hs with h1 h2
            exact ⟨h1, h2⟩
          rw [imageSub_cons_none ht, hrest, imageSub_of_no_bang hb, hc]
          exact ⟨[], rfl⟩
        | cons a0 a' =>
          obtain ⟨hc, hrest⟩ : c = a0 ∧ rest = a' ++ '\n' :: m := by
            rw [List.cons_append] at hs
            injection hs with h1 h2
            exact ⟨h1, h2⟩
          rw [imageSub_cons_none ht]
          obtain ⟨pre, hp⟩ := ih rest.length
            (by rw [← hlen]; simp) rest a' rfl hrest
          exact ⟨c :: pre, by rw [hp, List.cons_append]⟩
      | some p =>
        obtain ⟨alt, tail⟩ := p
        obtain ⟨cs, hcons, hne, hnl⟩ := tryImage_consumed ht
        have hsplit : ∃ a', a = cs ++ a' ∧ tail = a' ++ '\n' :: m := by
          have heq : cs ++ tail = a ++ '\n' :: m := by
            rw [← hcons, hs]
          rcases List.append_eq_append_iff.mp heq with
            ⟨w, hw1, hw2⟩ | ⟨w, hw1, hw2⟩
          · exact ⟨w, hw1, hw2⟩
          · cases w with
            | nil =>
              refine ⟨[], ?_, ?_⟩
              · rw [hw1]
                simp
              · simpa using hw2.symm
            | cons w0 w' =>
              exfalso
              have hw0 : w0 = '\n' := by
                injection hw2 with h1 _
                exact h1.symm
              apply hnl
              rw [hw1]
              apply List.mem_append_right
              rw [hw0]
              exact List.mem_cons_self _ _
        obtain ⟨a', ha', htail⟩ := hsplit
        rw [imageSub_cons_some ht]
        have hlt : tail.length < n := by
          rw [← hlen, hcons]
          rw [List.length_append]
          cases cs with
          | nil => exact absurd rfl hne
          | cons c0 cs' => simp
        obtain ⟨pre, hp⟩ := ih tail.length hlt tail a' rfl htail
        exact ⟨imgRepl alt ++ pre, by rw [hp, List.append_assoc]⟩

/-- C5 (claim theorem): whenever `get_text` returns a non-null string, that
string is at most 8192 characters and begins with `[Start of page]`, and
the string before the final truncation ends with `[End of page]`. -/
theorem c5_get_text_envelope (md : Option (List Char)) (s : List Char)
    (h : get_text md = some s) :
    s.length ≤ 8192 ∧ s.take 15 = "[Start of page]".toList ∧
      ∃ md0 pre, md = some md0 ∧ s = get_text_core md0 ∧
        page_markdown_pre md0 = pre ++ "[End of page]".toList := by
  cases md with
  | none => simp [get_text] at h
  | some md0 =>
    have h' : some (get_text_core md0) = some s := h
    have hs : s = get_text_core md0 := (Option.some_inj.mp h').symm
    subst hs
    refine ⟨?_, ?_, ?_⟩
    · show ((page_markdown_pre md0).take 8192).length ≤ 8192
      rw [List.length_take]
      exact min_le_left _ _
    · show ((page_markdown_pre md0).take 8192).take 15
        = "[Start of page]".toList
      rw [List.take_take, show min 15 8192 = 15 from by decide]
      have hpre : page_markdown_pre md0 = "[Start of page]\n\n".toList ++
          imageSub
            (joinSepL "\n\n".toList
                ((splitCh '\n' md0).filterMap keep_line) ++
              "\n\n[End of page]".toList) := by
        simp only [page_markdown_pre]
        rw [List.append_assoc]
        exact imageSub_append_no_bang _ (by decide)
      rw [hpre, List.take_append_of_le_length (by decide)]
      decide
    · have heq : "[Start of page]\n\n".toList ++
          joinSepL "\n\n".toList ((splitCh '\n' md0).filterMap keep_line) ++
          "\n\n[End of page]".toList
          = ("[Start of page]\n\n".toList ++
              joinSepL "\n\n".toList
                ((splitCh '\n' md0).filterMap keep_line) ++ ['\n']) ++
            '\n' :: "[End of page]".toList := by
        conv_rhs => rw [List.append_assoc]
        rfl
      obtain ⟨pre, hp⟩ := imageSub_keeps_nl_suffix (by decide) _ _ _ rfl heq
      refine ⟨md0, pre ++ ['\n'], rfl, rfl, ?_⟩
      show imageSub ("[Start of page]\n\n".toList ++
          joinSepL "\n\n".toList ((splitCh '\n' md0).filterMap keep_line) ++
          "\n\n[End of page]".toList) = (pre ++ ['\n']) ++ "[End of page]".toList
      rw [hp]
      conv_rhs => rw [List.append_assoc]
      rfl

/-- The Markdown text of the C5 witness page. -/
def demoMd : List Char :=
  "Hello world how are you today\nOK\n![logo](http://a/x.png)\nPrice: 42".toList

/-- C5 witness: the envelope theorem applied to a concrete page text. -/
theorem c5_get_text_envelope_witness :
    (get_text_core demoMd).length ≤ 8192 ∧
      (get_text_core demoMd).take 15 = "[Start of page]".toList ∧
      ∃ md0 pre, some demoMd = some md0 ∧
        get_text_core demoMd = get_text_core md0 ∧
        page_markdown_pre md0 = pre ++ "[End of page]".toList :=
  c5_get_text_envelope (some demoMd) (get_text_core demoMd) rfl

/-- C1 witness: the amended theorem applied to a concrete page with one
displayed valid link. -/
theorem c1_navigable_amended_witness :
    (urlparse_m (clean_url "http://ex.com/about".toList)).scheme ≠ [] ∧
      (urlparse_m (clean_url "http://ex.com/about".toList)).netloc ≠ [] ∧
      (clean_url "http://ex.com/about".toList).length ≤ 64 ∧
      endsNumericSegment
        (urlparse_m (clean_url "http://ex.com/about".toList)).path = false ∧
      ∃ l ∈ [RawLink.mk "http://ex.com/about".toList true],
        is_link_valid l.href = true ∧
          clean_url "http://ex.com/about".toList = clean_url l.href :=
  c1_navigable_amended [RawLink.mk "http://ex.com/about".toList true]
    (clean_url "http://ex.com/about".toList) (by decide)

end Browser
